import Mathlib

/-!
# Verification of the `arli` routing engine core

A shallow embedding, in Lean 4, of the core data structures and algorithms of the
`arli` road-routing library (crates `arli`, `arli-osm`), together with proofs and
refutations of a list of specification claims.

Conventions of the embedding:
* Rust machine integers (`u8`, `u32`, `usize`, `i8`) are modelled as `Nat` / `Int`;
  overflow is irrelevant at the places embedded here except where noted (`u8` parsing,
  where the source's behaviour on overflow is modelled explicitly).
* Fallible operations (Rust `assert!`, `unwrap`) are modelled with `Option` / an
  explicit `panic` constructor; `none` / `panic` means the Rust program aborts.
* `HashMap`s are modelled as functions into `Option`; `BinaryHeap` (a min-heap on
  `(cost, id)` with unspecified tie order) is modelled as a cost-sorted list where
  `push` inserts after existing entries of equal cost and `pop` takes the head —
  one concrete refinement of the unspecified heap order.
* Loops without a structural bound (`loop { .. }` in `route` / `route_bidir`) take an
  explicit fuel argument; running out of fuel is reported as a distinct outcome.
-/

namespace Arli

/-! ## Search space (src/arli/src/search_space.rs)

`SearchSpace<W, N>` is embedded with `W = Nat` (the claims under scrutiny restrict to
non-negative weights) and `N = Nat`.  A graph is given by its neighbor function
`nbrs : Nat → List Nat` (the `IntoNeighbors<Dir>` capability for the direction the
search runs in) and its weight function `w : Nat → Nat → Nat`
(`Weighted::transition_weight`). -/

/-- A priority-queue entry, mirroring `State { cost: W, id: N }`. -/
abbrev Entry : Type := Nat × Nat

/-- The label map `labels : HashMap<N, (W, N, bool)>`: `id ↦ (cost, parent, settled)`. -/
abbrev Labels : Type := Nat → Option (Nat × Nat × Bool)

/-- `BinaryHeap::push` on the min-heap of `State`s, modelled as ordered insertion into a
cost-ascending list (ties: new entry goes after existing equal-cost entries; the heap's
tie order is unspecified in the source). -/
def pqPush (e : Entry) : List Entry → List Entry
  | [] => [e]
  | f :: rest => if e.1 < f.1 then e :: f :: rest else f :: pqPush e rest

/-- Point update of a label map (`HashMap::insert` / entry overwrite). -/
def setLabel (L : Labels) (n : Nat) (l : Nat × Nat × Bool) : Labels :=
  fun m => if m = n then some l else L m

/-- `SearchSpace { pq, labels }`. -/
structure SearchSpace where
  pq : List Entry
  labels : Labels

/-- `SearchSpace::new()`. -/
def SearchSpace.new : SearchSpace := ⟨[], fun _ => none⟩

/-- `SearchSpace::min`: peek the head of the priority queue, reported as `(id, cost)`. -/
def SearchSpace.min (s : SearchSpace) : Option (Nat × Nat) :=
  s.pq.head?.map (fun e => (e.2, e.1))

/-- `SearchSpace::relax(node, new_parent, new_cost)`.  `none` models the
`assert!(!*is_settled)` panic in the improving branch. -/
def relax (s : SearchSpace) (node newParent cost : Nat) : Option SearchSpace :=
  match s.labels node with
  | some (c, _, isSettled) =>
    if cost < c then
      if isSettled then none
      else some ⟨pqPush (cost, node) s.pq, setLabel s.labels node (cost, newParent, false)⟩
    else some s
  | none => some ⟨pqPush (cost, node) s.pq, setLabel s.labels node (cost, newParent, false)⟩

/-- `SearchSpace::init(node)`: relax with the default (zero) cost and self parent. -/
def init (s : SearchSpace) (node : Nat) : Option SearchSpace :=
  relax s node node 0

/-- `SearchSpace::init_with_cost(node, cost)`. -/
def initWithCost (s : SearchSpace) (node cost : Nat) : Option SearchSpace :=
  relax s node node cost

/-- `SearchSpace::is_settled(node)`: the settled label's cost, if any. -/
def isSettled (s : SearchSpace) (node : Nat) : Option Nat :=
  match s.labels node with
  | some (c, _, true) => some c
  | _ => none

/-- The relaxation loop of `SearchSpace::update`: for each neighbor of the settled
node `id`, relax it with `cost + transition_weight(id, target)`. -/
def relaxNbrs (nbrs : Nat → List Nat) (w : Nat → Nat → Nat) (s : SearchSpace)
    (id cost : Nat) : Option SearchSpace :=
  (nbrs id).foldlM (fun st t => relax st t id (cost + w id t)) s

/-- The pop loop of `SearchSpace::update`, structurally recursive on the queue:
pop entries; an entry whose label is absent or already settled is skipped
(`if !self.settle(id) { continue; }`); the first entry with an unsettled label is
settled and its neighbors relaxed, returning `true`; an exhausted queue returns
`false`. -/
def updateGo (nbrs : Nat → List Nat) (w : Nat → Nat → Nat) :
    List Entry → Labels → Option (SearchSpace × Bool)
  | [], L => some (⟨[], L⟩, false)
  | (cost, id) :: rest, L =>
    match L id with
    | some (lc, lp, false) =>
      (relaxNbrs nbrs w ⟨rest, setLabel L id (lc, lp, true)⟩ id cost).map (fun s => (s, true))
    | _ => updateGo nbrs w rest L

/-- `SearchSpace::update::<Dir>(graph)`.  The direction parameter is absorbed into
`nbrs`: instantiating `nbrs` with the forward (resp. backward) neighbor function gives
`update::<Forward>` (resp. `update::<Backward>`). -/
def update (nbrs : Nat → List Nat) (w : Nat → Nat → Nat) (s : SearchSpace) :
    Option (SearchSpace × Bool) :=
  updateGo nbrs w s.pq s.labels

/-- `SearchSpace::unwind(node)`: follow parent pointers until the self-parent loop.
The Rust loop has no structural bound (a corrupt parent map would cycle), so the
embedding takes fuel; every use in this file supplies enough fuel. -/
def unwind (s : SearchSpace) : Nat → Nat → List Nat
  | 0, _ => []
  | fuel + 1, current =>
    match s.labels current with
    | some (_, parent, _) =>
      if current = parent then [current] else current :: unwind s fuel parent
    | none => []

/-- Initializing a search at a list of nodes (the `for … { search.init(*id) }` loops of
`route` / `route_bidir`), starting from `SearchSpace::new()`. -/
def initAll (ids : List Nat) : Option SearchSpace :=
  ids.foldlM init SearchSpace.new

/-! ## Route solver (src/arli/src/route.rs)

A `MatchedWaypoint` enters `route` / `route_bidir` only through the list of snapped
segment ids, so the solvers are embedded over those id lists directly.  The
`num_resolved` diagnostic counter of `Route` is reported by code that is not under
`src/` and is irrelevant to the claims (they speak about `cost`), so the embedded
`Route` carries `cost` and `ids` only. -/

/-- The result of a successful search (`Route { cost, ids, .. }`). -/
structure Route where
  cost : Nat
  ids : List Nat
  deriving Repr, DecidableEq

/-- Outcome of running an unboundedly looping Rust function: either it panicked,
or the modelling fuel ran out before the loop finished, or it returned a value. -/
inductive Outcome (α : Type) where
  | panic : Outcome α
  | fuelOut : Outcome α
  | value : α → Outcome α
  deriving Repr, DecidableEq

/-- The `loop { forward_search.update(graph); match forward_search.min() { … } }` body
of `route`.  Note the source inspects `min()` (the possibly stale queue head) after each
update and returns its cost when the head's id is a target. -/
def routeLoop (nbrs : Nat → List Nat) (w : Nat → Nat → Nat) (targets : List Nat)
    (unwindFuel : Nat) : Nat → SearchSpace → Outcome (Option Route)
  | 0, _ => .fuelOut
  | fuel + 1, s =>
    match update nbrs w s with
    | none => .panic
    | some (s', _) =>
      match s'.min with
      | some (id, value) =>
        if targets.contains id then
          .value (some ⟨value, (unwind s' unwindFuel id).reverse⟩)
        else
          routeLoop nbrs w targets unwindFuel fuel s'
      | none => .value none

/-- `route(graph, from, to)`: a forward search initialized at every snapped origin id,
run until the queue head is a snapped destination id or the frontier is exhausted. -/
def route (nbrs : Nat → List Nat) (w : Nat → Nat → Nat) (fromIds toIds : List Nat)
    (fuel unwindFuel : Nat) : Outcome (Option Route) :=
  match initAll fromIds with
  | none => .panic
  | some s => routeLoop nbrs w toIds unwindFuel fuel s

/-- `BidirectionalSearch { min_cost, metting_node }` (field name as in the source). -/
structure BidirectionalSearch where
  min_cost : Option Nat
  metting_node : Option Nat

/-- `BidirectionalSearch::new()`. -/
def BidirectionalSearch.new : BidirectionalSearch := ⟨none, none⟩

/-- `BidirectionalSearch::when_forward_relaxed(backward, node, cost)`.  Note the
source updates `(min_cost, metting_node)` when
`self.min_cost.filter(|v| min_bacward + cost < *v).is_none()`, i.e. when there is no
current meeting candidate *or the new candidate is not better* than the current one. -/
def whenForwardRelaxed (b : BidirectionalSearch) (backward : Option Nat)
    (node cost : Nat) : BidirectionalSearch :=
  match backward with
  | some minBacward =>
    if (b.min_cost.filter (fun v => minBacward + cost < v)).isNone then
      ⟨some (minBacward + cost), some node⟩
    else b
  | none => b

/-- `BidirectionalSearch::when_bacward_relaxed(forward, node, cost)` (same logic with
the forward side supplying the settled cost). -/
def whenBacwardRelaxed (b : BidirectionalSearch) (forward : Option Nat)
    (node cost : Nat) : BidirectionalSearch :=
  match forward with
  | some minForward =>
    if (b.min_cost.filter (fun v => minForward + cost < v)).isNone then
      ⟨some (minForward + cost), some node⟩
    else b
  | none => b

/-- `BidirectionalSearch::route_found(forward, backward)`: when both queues are
non-empty and `min_f + min_b >= min_cost`, report `(metting_node, min_cost)`. -/
def routeFound (b : BidirectionalSearch) (forward backward : SearchSpace) :
    Option (Nat × Nat) :=
  match forward.min, backward.min with
  | some (_, minF), some (_, minB) =>
    match b.metting_node, b.min_cost.filter (fun v => minF + minB ≥ v) with
    | some n, some c => some (n, c)
    | _, _ => none
  | _, _ => none

/-- Modelled from the spec: `SearchSpace::update_and_track` is called from
`route_bidir` (src/arli/src/route.rs) but its definition is not under `src/` (only the
plain `update` is).  Per spec §4.I/§4.J the bidirectional solver is notified "when a
node v is relaxed on one side with tentative cost c_this"; `update` invokes `relax` on
every neighbor of the settled node with tentative cost `cost + weight`, so
`update_and_track` is modelled as `update` that additionally reports the list of
`(neighbor, cost + weight)` relaxation events of the settled node, in neighbor order. -/
def updateTrackGo (nbrs : Nat → List Nat) (w : Nat → Nat → Nat) :
    List Entry → Labels → Option (SearchSpace × Bool × List (Nat × Nat))
  | [], L => some (⟨[], L⟩, false, [])
  | (cost, id) :: rest, L =>
    match L id with
    | some (lc, lp, false) =>
      (relaxNbrs nbrs w ⟨rest, setLabel L id (lc, lp, true)⟩ id cost).map
        (fun s => (s, true, (nbrs id).map (fun t => (t, cost + w id t))))
    | _ => updateTrackGo nbrs w rest L

/-- Modelled from the spec: entry point of `update_and_track` (see `updateTrackGo`). -/
def updateTrack (nbrs : Nat → List Nat) (w : Nat → Nat → Nat) (s : SearchSpace) :
    Option (SearchSpace × Bool × List (Nat × Nat)) :=
  updateTrackGo nbrs w s.pq s.labels

/-- One `loop { … }` iteration sequence of `route_bidir`: check `route_found`; then a
forward `update_and_track` whose relax events consult the *pre-update* backward space;
then a backward `update_and_track` whose relax events consult the *already updated*
forward space (the order the source's closures capture the two search spaces). -/
def routeBidirLoop (nbrsF nbrsB : Nat → List Nat) (w : Nat → Nat → Nat)
    (unwindFuel : Nat) :
    Nat → SearchSpace → SearchSpace → BidirectionalSearch → Outcome (Option Route)
  | 0, _, _, _ => .fuelOut
  | fuel + 1, fs, bs, search =>
    match routeFound search fs bs with
    | some (node, cost) =>
      .value (some ⟨cost,
        ((unwind fs unwindFuel node).drop 1).reverse ++ unwind bs unwindFuel node⟩)
    | none =>
      match updateTrack nbrsF w fs with
      | none => .panic
      | some (fs', _, fwdEvents) =>
        let search := fwdEvents.foldl
          (fun b e => whenForwardRelaxed b (isSettled bs e.1) e.1 e.2) search
        match updateTrack nbrsB w bs with
        | none => .panic
        | some (bs', _, bwdEvents) =>
          let search := bwdEvents.foldl
            (fun b e => whenBacwardRelaxed b (isSettled fs' e.1) e.1 e.2) search
          routeBidirLoop nbrsF nbrsB w unwindFuel fuel fs' bs' search

/-- `route_bidir(graph, from, to)`: forward search from the origin ids, backward search
from the destination ids, meeting-in-the-middle via `BidirectionalSearch`. -/
def routeBidir (nbrsF nbrsB : Nat → List Nat) (w : Nat → Nat → Nat)
    (fromIds toIds : List Nat) (fuel unwindFuel : Nat) : Outcome (Option Route) :=
  match initAll fromIds, initAll toIds with
  | some fs, some bs =>
    routeBidirLoop nbrsF nbrsB w unwindFuel fuel fs bs BidirectionalSearch.new
  | _, _ => .panic

/-! ## Claim C3: behaviour of `SearchSpace::update` -/

/-- A queue entry is *stale* for a label map when the code's `settle` would refuse it:
its node's label is already settled, or (defensively) absent. -/
def staleEntry (L : Labels) (e : Entry) : Bool :=
  match L e.2 with
  | some (_, _, b) => b
  | none => true

theorem updateGo_all_stale (nbrs : Nat → List Nat) (w : Nat → Nat → Nat)
    (pq : List Entry) (L : Labels) (h : ∀ e ∈ pq, staleEntry L e = true) :
    updateGo nbrs w pq L = some (⟨[], L⟩, false) := by
  induction pq with
  | nil => rfl
  | cons e rest ih =>
    obtain ⟨c, n⟩ := e
    have he := h (c, n) (List.mem_cons_self _ _)
    simp only [staleEntry] at he
    simp only [updateGo]
    cases hL : L n with
    | none => exact ih fun e he' => h e (List.mem_cons_of_mem _ he')
    | some l =>
      obtain ⟨lc, lp, b⟩ := l
      rw [hL] at he
      cases b with
      | false => simp at he
      | true => exact ih fun e he' => h e (List.mem_cons_of_mem _ he')

theorem updateGo_first_nonstale (nbrs : Nat → List Nat) (w : Nat → Nat → Nat)
    (pre : List Entry) (c n : Nat) (rest : List Entry) (L : Labels)
    (hpre : ∀ e ∈ pre, staleEntry L e = true) (hn : staleEntry L (c, n) = false) :
    ∃ lc lp, L n = some (lc, lp, false) ∧
      updateGo nbrs w (pre ++ (c, n) :: rest) L =
        (relaxNbrs nbrs w ⟨rest, setLabel L n (lc, lp, true)⟩ n c).map
          (fun s => (s, true)) := by
  induction pre with
  | nil =>
    simp only [staleEntry] at hn
    cases hL : L n with
    | none => rw [hL] at hn; simp at hn
    | some l =>
      obtain ⟨lc, lp, b⟩ := l
      rw [hL] at hn
      cases b with
      | true => simp at hn
      | false =>
        refine ⟨lc, lp, rfl, ?_⟩
        show updateGo nbrs w ([] ++ (c, n) :: rest) L = _
        simp only [List.nil_append, updateGo, hL]
  | cons e pre ih =>
    obtain ⟨ec, en⟩ := e
    have he := hpre (ec, en) (List.mem_cons_self _ _)
    obtain ⟨lc, lp, hL, hgo⟩ := ih fun e he' => hpre e (List.mem_cons_of_mem _ he')
    refine ⟨lc, lp, hL, ?_⟩
    simp only [staleEntry] at he
    simp only [List.cons_append, updateGo]
    cases hLe : L en with
    | none => exact hgo
    | some l =>
      obtain ⟨lc', lp', b⟩ := l
      rw [hLe] at he
      cases b with
      | false => simp at he
      | true => exact hgo

theorem head_false_of_dropWhile_eq_cons {α : Type} {p : α → Bool} {l tl : List α}
    {a : α} (h : l.dropWhile p = a :: tl) : p a = false := by
  induction l with
  | nil => simp at h
  | cons x xs ih =>
    rw [List.dropWhile_cons] at h
    by_cases hp : p x = true
    · rw [if_pos hp] at h
      exact ih h
    · rw [if_neg hp] at h
      obtain ⟨rfl, -⟩ := List.cons.injEq .. ▸ h
      · exact Bool.not_eq_true _ |>.mp hp

theorem updateGo_true_iff (nbrs : Nat → List Nat) (w : Nat → Nat → Nat)
    (pq : List Entry) (L : Labels) (r : SearchSpace × Bool)
    (h : updateGo nbrs w pq L = some r) :
    r.2 = true ↔ ∃ e ∈ pq, staleEntry L e = false := by
  by_cases hall : ∀ e ∈ pq, staleEntry L e = true
  · rw [updateGo_all_stale nbrs w pq L hall, Option.some_inj] at h
    subst h
    simp only [Bool.false_eq_true, false_iff]
    rintro ⟨e, he, hs⟩
    rw [hall e he] at hs
    exact Bool.true_eq_false.mp hs
  · have hne : pq.dropWhile (staleEntry L) ≠ [] := by
      intro hnil
      exact hall (List.dropWhile_eq_nil_iff.mp hnil)
    obtain ⟨⟨c, n⟩, tl, htl⟩ := List.exists_cons_of_ne_nil hne
    have hd : staleEntry L (c, n) = false := head_false_of_dropWhile_eq_cons htl
    have hdecomp : pq = pq.takeWhile (staleEntry L) ++ (c, n) :: tl := by
      rw [← htl, List.takeWhile_append_dropWhile]
    obtain ⟨lc, lp, hL, hgo⟩ := updateGo_first_nonstale nbrs w
      (pq.takeWhile (staleEntry L)) c n tl L
      (fun e he => List.mem_takeWhile_imp he) hd
    rw [hdecomp] at h
    rw [hgo] at h
    constructor
    · intro _
      exact ⟨(c, n), by rw [hdecomp]; exact List.mem_append_right _ (List.mem_cons_self _ _), hd⟩
    · intro _
      cases hrx : relaxNbrs nbrs w ⟨tl, setLabel L n (lc, lp, true)⟩ n c with
      | none => rw [hrx] at h; exact absurd h (by simp)
      | some s' =>
        rw [hrx] at h
        simp only [Option.map_some', Option.some_inj] at h
        rw [← h]

/-- C3 (amended): `update<Dir>(graph)` pops entries until a non-stale one is found,
marks that node settled (keeping its stored cost and parent), relaxes each neighbor in
direction `Dir` with `cost + weight(node, neighbor)` (the `relaxNbrs` loop), and
returns `true` if and only if a non-stale entry was found — equivalently, iff a node
was settled during the call.  When every entry of the queue is stale the call pops them
all and returns `false`, even though entries were popped. -/
theorem update_pop_settle_relax_return (nbrs : Nat → List Nat) (w : Nat → Nat → Nat)
    (s : SearchSpace) :
    ((∀ e ∈ s.pq, staleEntry s.labels e = true) →
        update nbrs w s = some (⟨[], s.labels⟩, false)) ∧
    (∀ pre c n rest, s.pq = pre ++ (c, n) :: rest →
        (∀ e ∈ pre, staleEntry s.labels e = true) → staleEntry s.labels (c, n) = false →
        ∃ lc lp, s.labels n = some (lc, lp, false) ∧
          update nbrs w s =
            (relaxNbrs nbrs w ⟨rest, setLabel s.labels n (lc, lp, true)⟩ n c).map
              (fun t => (t, true))) ∧
    (∀ r, update nbrs w s = some r →
        (r.2 = true ↔ ∃ e ∈ s.pq, staleEntry s.labels e = false)) := by
  refine ⟨fun h => updateGo_all_stale nbrs w s.pq s.labels h, ?_, ?_⟩
  · intro pre c n rest hpq hpre hn
    obtain ⟨lc, lp, hL, hgo⟩ := updateGo_first_nonstale nbrs w pre c n rest s.labels hpre hn
    exact ⟨lc, lp, hL, by rw [update, hpq, hgo]⟩
  · exact fun r hr => updateGo_true_iff nbrs w s.pq s.labels r hr

/-- The concrete graph of the C3 counterexample: `0 → {1, 2}` with weights 5 and 1,
`2 → {1}` with weight 1 (so node 1 is relaxed at cost 5, improved to cost 2, and the
stale cost-5 queue entry outlives node 1's settlement). -/
def c3Nbrs : Nat → List Nat
  | 0 => [1, 2]
  | 2 => [1]
  | _ => []

/-- Weights for the C3 counterexample graph. -/
def c3W : Nat → Nat → Nat
  | 0, 1 => 5
  | 0, 2 => 1
  | 2, 1 => 1
  | _, _ => 0

/-- The search state after `init(0)` and three `update` calls on the C3 graph: all
three nodes are settled and exactly one stale entry `(5, 1)` remains queued. -/
def c3State : Option SearchSpace :=
  (initAll [0]).bind fun s =>
    (update c3Nbrs c3W s).bind fun p =>
      (update c3Nbrs c3W p.1).bind fun q =>
        (update c3Nbrs c3W q.1).map Prod.fst

/-- C3 counterexample: on the C3 graph state, the priority queue still holds the stale
entry `(5, 1)`, so the next `update` call *does* pop an entry from the queue, yet it
returns `false` — refuting "returns true if and only if any entry was popped from the
priority queue during the call". -/
theorem update_returns_false_despite_pop :
    c3State.map SearchSpace.pq = some [(5, 1)] ∧
      (c3State.bind (update c3Nbrs c3W)).map (fun r => r.2) = some false := by
  constructor <;> rfl

/-! ## Claim C1: bidirectional vs. unidirectional cost

The counterexample graph below has two routes from node 0 to node 4: a short expensive
one `0 → 1 → 4` of cost `1 + 50 = 51` and a long cheap one `0 → 2 → 3 → 4` of cost
`2 + 2 + 2 = 6`.  The bidirectional meeting bookkeeping in `BidirectionalSearch`
registers the cost-51 meeting candidate first and then, because
`when_forward_relaxed` / `when_bacward_relaxed` only replace `min_cost` when the new
candidate is *not* smaller (`min_cost.filter(|v| new < *v).is_none()`), ignores every
cost-6 candidate, so `route_bidir` terminates with cost 51 while `route` returns 6. -/

/-- Forward neighbors of the C1 counterexample graph. -/
def c1NbrsF : Nat → List Nat
  | 0 => [1, 2]
  | 1 => [4]
  | 2 => [3]
  | 3 => [4]
  | _ => []

/-- Backward neighbors (exact reversal of `c1NbrsF`). -/
def c1NbrsB : Nat → List Nat
  | 4 => [1, 3]
  | 3 => [2]
  | 2 => [0]
  | 1 => [0]
  | _ => []

/-- Transition weights of the C1 counterexample graph.  The function is symmetric
because the backward search evaluates `transition_weight(node, predecessor)` with the
arguments in traversal order (the source's own TODO notes the argument swap), so a
symmetric weight makes both searches see the same non-negative edge weights. -/
def c1W : Nat → Nat → Nat
  | 0, 1 => 1
  | 1, 0 => 1
  | 1, 4 => 50
  | 4, 1 => 50
  | 0, 2 => 2
  | 2, 0 => 2
  | 2, 3 => 2
  | 3, 2 => 2
  | 3, 4 => 2
  | 4, 3 => 2
  | _, _ => 0

/-- C1 refuted: on the counterexample graph with origin snapped to node 0 and
destination snapped to node 4 (both searches terminate well within the given fuel),
the unidirectional solver returns cost 6 — the true shortest-path cost — while the
bidirectional solver returns cost 51.  The spec's claim that both return the same cost
fails on the code as written. -/
theorem route_bidir_cost_mismatch :
    route c1NbrsF c1W [0] [4] 100 100 = .value (some ⟨6, [0, 2, 3, 4]⟩) ∧
      routeBidir c1NbrsF c1NbrsB c1W [0] [4] 100 100 =
        .value (some ⟨51, [0, 2, 3, 4]⟩) := by
  constructor <;> rfl

/-! ## OSM tag categorization (src/arli-osm/src/osm4routing/categorize.rs)

Claims C5 and C6.  `i8` access levels are modelled as `Int` (the sentinel `UNKNOWN`
is `-1`), the `u8` speed limit as `Nat`.  A Rust panic (`unwrap` failure) is the
`.error ()` value of `Except Unit`. -/

def UNKNOWN : Int := -1
def FOOT_FORBIDDEN : Int := 0
def FOOT_ALLOWED : Int := 1
def CAR_FORBIDDEN : Int := 0
def CAR_RESIDENTIAL : Int := 1
def CAR_TERTIARY : Int := 2
def CAR_SECONDARY : Int := 3
def CAR_PRIMARY : Int := 4
def CAR_TRUNK : Int := 5
def CAR_MOTORWAY : Int := 6
def BIKE_FORBIDDEN : Int := 0
def BIKE_ALLOWED : Int := 2
def BIKE_LANE : Int := 3
def BIKE_BUSWAY : Int := 4
def BIKE_TRACK : Int := 5

/-- `EdgeProperties` of the OSM way categorizer. -/
structure EdgeProperties where
  foot : Int
  car_forward : Int
  car_backward : Int
  bike_forward : Int
  bike_backward : Int
  speed_limit_km_h : Nat
  deriving Repr, DecidableEq

/-- `EdgeProperties::default()`: all access fields `UNKNOWN`, speed limit 50. -/
def EdgeProperties.default : EdgeProperties :=
  ⟨UNKNOWN, UNKNOWN, UNKNOWN, UNKNOWN, UNKNOWN, 50⟩

/-- `EdgeProperties::normalize`: the source's sequence of in-place conditional
assignments, translated as successive state updates in the same order. -/
def EdgeProperties.normalize (p0 : EdgeProperties) : EdgeProperties :=
  let p1 := if p0.car_backward = UNKNOWN then { p0 with car_backward := p0.car_forward } else p0
  let p2 := if p1.bike_backward = UNKNOWN then { p1 with bike_backward := p1.bike_forward } else p1
  let p3 := if p2.car_forward = UNKNOWN then { p2 with car_forward := CAR_FORBIDDEN } else p2
  let p4 := if p3.bike_forward = UNKNOWN then { p3 with bike_forward := BIKE_FORBIDDEN } else p3
  let p5 := if p4.car_backward = UNKNOWN then { p4 with car_backward := CAR_FORBIDDEN } else p4
  let p6 := if p5.bike_backward = UNKNOWN then { p5 with bike_backward := BIKE_FORBIDDEN } else p5
  if p6.foot = UNKNOWN then { p6 with foot := FOOT_FORBIDDEN } else p6

/-- Rust `str::parse::<u8>` applied to a non-empty all-digit string: its numeric value
when it fits into `u8`, otherwise `none` (a `ParseIntError` the source `unwrap`s). -/
def parseU8Digits (s : List Char) : Option Nat :=
  let v := s.foldl (fun acc c => acc * 10 + (c.toNat - 48)) 0
  if v ≤ 255 then some v else none

/-- Bit length (index of the highest set bit, plus one) of a natural number below
`2^40`, written as a structural fold so that it computes inside the kernel. -/
def bitLen (n : Nat) : Nat :=
  (List.range 40).foldl (fun acc i => if 2 ^ i ≤ n then i + 1 else acc) 0

/-- The IEEE single-precision computation `(v as f32 * 1.6) as u8` for `v ≤ 255`,
carried out exactly over `Nat`: `1.6f32` is `13421773 / 2^23`, the product of the
(exactly representable) `v` with it is rounded to 24 significant bits (round to
nearest, ties to even) and the result truncated toward zero with saturation at 255
(Rust float→int `as` casts saturate). -/
def mphToKmh (v : Nat) : Nat :=
  let M := v * 13421773
  if M = 0 then 0
  else
    let shift := bitLen M - 24
    let q := M >>> shift
    let r := M % 2 ^ shift
    let q' := if 2 * r > 2 ^ shift ∨ (2 * r = 2 ^ shift ∧ q % 2 = 1) then q + 1 else q
    Nat.min 255 ((q' <<< shift) >>> 23)

/-- `EdgeProperties::parse_max_speed`.  The source matches the regex
`^(?P<value>\d+)\s*(?P<unit>.*)$` against `val`: it matches iff `val` starts with a
digit and no newline remains after the maximal digit prefix and the following
whitespace run (regex `.` does not match `\n`); `value` is then the digit prefix and
`unit` the remainder.  On a match the source runs `value.parse::<u8>().unwrap()`,
which panics (`.error ()`) when the digits exceed `u8::MAX`; `.ok none` is the
no-match case (the regex classes `\d`/`\s` are modelled by `Char.isDigit` /
`Char.isWhitespace`; all inputs used by the claims are ASCII). -/
def parseMaxSpeed (val : String) : Except Unit (Option Nat) :=
  let digits := val.data.takeWhile Char.isDigit
  let unit := (val.data.drop digits.length).dropWhile Char.isWhitespace
  if digits.isEmpty ∨ unit.contains '\n' then .ok none
  else
    match parseU8Digits digits with
    | none => .error ()
    | some v => if unit = "mph".data then .ok (some (mphToKmh v)) else .ok (some v)

/-- `EdgeProperties::update(key, val)`: the tag-handler dispatch, translated
branch-for-branch.  Only the `maxspeed` branch can panic (via `parse_max_speed`). -/
def EdgeProperties.update (p : EdgeProperties) (key val : String) :
    Except Unit EdgeProperties :=
  match key with
  | "highway" =>
    .ok (match val with
      | "cycleway" | "path" | "footway" | "steps" | "pedestrian" =>
        { p with bike_forward := BIKE_TRACK, foot := FOOT_ALLOWED }
      | "primary" | "primary_link" =>
        { p with car_forward := CAR_PRIMARY, foot := FOOT_ALLOWED,
                 bike_forward := BIKE_ALLOWED }
      | "secondary" =>
        { p with car_forward := CAR_SECONDARY, foot := FOOT_ALLOWED,
                 bike_forward := BIKE_ALLOWED }
      | "tertiary" =>
        { p with car_forward := CAR_TERTIARY, foot := FOOT_ALLOWED,
                 bike_forward := BIKE_ALLOWED }
      | "unclassified" | "residential" | "living_street" | "road" | "service" | "track" =>
        { p with car_forward := CAR_RESIDENTIAL, foot := FOOT_ALLOWED,
                 bike_forward := BIKE_ALLOWED }
      | "motorway" | "motorway_link" =>
        { p with car_forward := CAR_MOTORWAY, foot := FOOT_FORBIDDEN,
                 bike_forward := BIKE_FORBIDDEN }
      | "trunk" | "trunk_link" =>
        { p with car_forward := CAR_TRUNK, foot := FOOT_FORBIDDEN,
                 bike_forward := BIKE_FORBIDDEN }
      | _ => p)
  | "pedestrian" | "foot" =>
    .ok (match val with
      | "no" => { p with foot := FOOT_FORBIDDEN }
      | _ => { p with foot := FOOT_ALLOWED })
  | "cycleway" =>
    .ok (match val with
      | "track" => { p with bike_forward := BIKE_TRACK }
      | "opposite_track" => { p with bike_backward := BIKE_TRACK }
      | "opposite" => { p with bike_backward := BIKE_ALLOWED }
      | "share_busway" => { p with bike_forward := BIKE_BUSWAY }
      | "lane_left" | "opposite_lane" => { p with bike_backward := BIKE_LANE }
      | _ => { p with bike_forward := BIKE_LANE })
  | "bicycle" =>
    .ok (match val with
      | "no" | "false" => { p with bike_forward := BIKE_FORBIDDEN }
      | _ => { p with bike_forward := BIKE_ALLOWED })
  | "busway" =>
    .ok (match val with
      | "opposite_lane" | "opposite_track" => { p with bike_backward := BIKE_BUSWAY }
      | _ => { p with bike_forward := BIKE_BUSWAY })
  | "oneway" =>
    .ok (match val with
      | "yes" | "true" | "1" =>
        let p := { p with car_backward := CAR_FORBIDDEN }
        if p.bike_backward = UNKNOWN then { p with bike_backward := BIKE_FORBIDDEN } else p
      | _ => p)
  | "junction" =>
    .ok (if val = "roundabout" then
        let p := { p with car_backward := CAR_FORBIDDEN }
        if p.bike_backward = UNKNOWN then { p with bike_backward := BIKE_FORBIDDEN } else p
      else p)
  | "maxspeed" =>
    (parseMaxSpeed val).map (fun r => { p with speed_limit_km_h := r.getD p.speed_limit_km_h })
  | _ => .ok p

/-- C5 refuted: `parse_max_speed("300")` — and hence
`EdgeProperties::update("maxspeed", "300")` — hits `parse::<u8>().unwrap()` on a value
exceeding `u8::MAX` and panics, instead of skipping the unparseable value as the claim
(and spec §7's "no panic, skip") requires. -/
theorem parse_max_speed_panics_on_300 :
    parseMaxSpeed "300" = .error () ∧
      EdgeProperties.default.update "maxspeed" "300" = .error () := by
  constructor <;> rfl

/-- C6 confirmed: applying the handlers for `highway=primary`, `maxspeed=50 mph`,
`oneway=yes` in key order to the default `EdgeProperties` and normalizing yields
`foot = 1, car_forward = 4, car_backward = 0, bike_forward = 2, bike_backward = 0,
speed_limit_km_h = 80`. -/
theorem categorize_scenario_s2 :
    Except.map EdgeProperties.normalize
        (((EdgeProperties.default.update "highway" "primary").bind
            (fun p => p.update "maxspeed" "50 mph")).bind
          (fun p => p.update "oneway" "yes")) =
      .ok ⟨1, 4, 0, 2, 0, 80⟩ := by
  rfl

/-! ## `RefIterator` (src/arli/src/graph_impl/common.rs)

`RefIterator { items, next, last }` walks `items` from `next` toward `last`:
`next()` returns `None` when `next == last`, otherwise yields `items[next]` and moves
`next` one step toward `last` (`if next < last { next += 1 }; if next > last
{ next -= 1 }`).  `refIndices` collects the visited indices with exactly that
case analysis; out-of-range reads (which would panic in Rust) are modelled by
`List.getD` with the type's default element. -/

/-- The index sequence visited by `RefIterator::new(items, first, last)`. -/
def refIndices (next last : Nat) : List Nat :=
  if next = last then []
  else if next < last then next :: refIndices (next + 1) last
  else next :: refIndices (next - 1) last
termination_by max next last - min next last
decreasing_by
  all_goals simp_wf
  all_goals omega

theorem refIndices_self (n : Nat) : refIndices n n = [] := by
  rw [refIndices]
  simp

/-- `RefIterator` collected to a list. -/
def refIterList {α : Type} [Inhabited α] (items : List α) (first last : Nat) : List α :=
  (refIndices first last).map (fun i => items.getD i default)

theorem refIndices_forward_aux (n : Nat) :
    ∀ s, refIndices s (s + n) = List.range' s n := by
  induction n with
  | zero => intro s; exact refIndices_self s
  | succ n ih =>
    intro s
    rw [refIndices, if_neg (by omega), if_pos (by omega)]
    rw [List.range'_succ]
    have h : s + (n + 1) = (s + 1) + n := by omega
    rw [h, ih (s + 1)]

theorem refIndices_forward (s e : Nat) (h : s ≤ e) :
    refIndices s e = List.range' s (e - s) := by
  have := refIndices_forward_aux (e - s) s
  rwa [Nat.add_sub_cancel' h] at this

theorem refIndices_backward_aux (e : Nat) :
    ∀ n, refIndices (e + 1 + n) e = (List.range' (e + 1) (n + 1)).reverse := by
  intro n
  induction n with
  | zero =>
    rw [refIndices, if_neg (by omega), if_neg (by omega)]
    have h : e + 1 + 0 - 1 = e := by omega
    rw [h, refIndices_self]
    simp [List.range']
  | succ n ih =>
    rw [refIndices, if_neg (by omega), if_neg (by omega)]
    have h1 : e + 1 + (n + 1) - 1 = e + 1 + n := by omega
    rw [h1, ih]
    conv_rhs => rw [List.range'_concat, List.reverse_append]
    simp only [List.reverse_cons, List.reverse_nil, List.nil_append,
      List.singleton_append, one_mul]

theorem refIndices_backward (s e : Nat) (h : e < s) :
    refIndices s e = (List.range' (e + 1) (s - e)).reverse := by
  obtain ⟨n, rfl⟩ : ∃ n, s = e + 1 + n := ⟨s - (e + 1), by omega⟩
  rw [refIndices_backward_aux]
  congr 2
  omega

/-! ## Position and `CompactSpatialGraph` geometry
(src/arli/src/graph_impl/compact_spatial_graph.rs)

Coordinates (`Coordinate<f32>`) are modelled as exact rationals: the claims embedded
here move coordinates around but never do floating-point arithmetic on them, except
the overlay's `1.0 - factor`, which is modelled as exact subtraction (see C8). -/

/-- `Position` — a lon/lat coordinate pair. -/
structure Position where
  x : ℚ
  y : ℚ
  deriving DecidableEq, Repr, Inhabited

/-- `Node` of the compact graph: offsets of the outgoing/incoming neighbor slices in
`edge_references`. -/
structure CGNode where
  out_edges_offset : Nat
  in_edges_offset : Nat
  deriving DecidableEq, Repr, Inhabited

/-- `CompactGraph<NodeData>`. -/
structure CompactGraph (Data : Type) where
  nodes : List CGNode
  data : List Data
  edge_references : List Nat

/-- `IntoNeighbors<Forward> for &CompactGraph`: the `edge_references` slice between
`nodes[i].out_edges_offset` and `nodes[i+1].out_edges_offset`. -/
def CompactGraph.forwardNeighbors {D : Type} (g : CompactGraph D) (id : Nat) : List Nat :=
  refIterList g.edge_references
    (g.nodes.getD id default).out_edges_offset
    (g.nodes.getD (id + 1) default).out_edges_offset

/-- `IntoNeighbors<Backward> for &CompactGraph`. -/
def CompactGraph.backwardNeighbors {D : Type} (g : CompactGraph D) (id : Nat) : List Nat :=
  refIterList g.edge_references
    (g.nodes.getD id default).in_edges_offset
    (g.nodes.getD (id + 1) default).in_edges_offset

/-- `CompactGraph::number_of_nodes`. -/
def CompactGraph.number_of_nodes {D : Type} (g : CompactGraph D) : Nat :=
  g.nodes.length

/-- `nodes[j].in_edges_offset += d` (an in-place `+=` on one array slot of the
`from_row_data` construction; reads before writing, as the source does). -/
def bumpIn (ns : List CGNode) (j d : Nat) : List CGNode :=
  ns.set j ⟨(ns.getD j default).out_edges_offset, (ns.getD j default).in_edges_offset + d⟩

/-- `nodes[j].in_edges_offset = v`. -/
def setIn (ns : List CGNode) (j v : Nat) : List CGNode :=
  ns.set j ⟨(ns.getD j default).out_edges_offset, v⟩

/-- The lexicographic `Ord` on `(usize, u32)` pairs that Rust's `Vec::sort` uses. -/
def pairLe (a b : Nat × Nat) : Bool :=
  decide (a.1 < b.1 ∨ (a.1 = b.1 ∧ a.2 ≤ b.2))

/-- `CompactGraph::from_row_data(data, offsets, out_references)`, translated
step-for-step: write the outgoing offsets plus the sentinel node; collect all
`(to, from)` pairs by iterating every node's outgoing slice with a `RefIterator`;
sort them; append the `from` components to `edge_references` while counting
in-degrees into `nodes[to + 1].in_edges_offset`; finally turn the counts into global
offsets with `nodes[0].in_edges_offset = num_edges` and a running prefix sum. -/
def from_row_data {D : Type} (data : List D) (offsets : List Nat)
    (out_references : List Nat) : CompactGraph D :=
  let num_nodes := data.length
  let num_edges := out_references.length
  let nodes : List CGNode := offsets.map (fun o => ⟨o, 0⟩) ++ [⟨num_edges, 0⟩]
  let in_references_tmp : List (Nat × Nat) :=
    (List.range num_nodes).flatMap (fun src =>
      (refIterList out_references
          (nodes.getD src default).out_edges_offset
          (nodes.getD (src + 1) default).out_edges_offset).map (fun t => (t, src)))
  let sorted := in_references_tmp.mergeSort pairLe
  let edge_references := out_references ++ sorted.map (fun pr => pr.2)
  let nodes := sorted.foldl (fun ns pr => bumpIn ns (pr.1 + 1) 1) nodes
  let nodes := setIn nodes 0 num_edges
  let nodes := (List.range num_nodes).foldl
    (fun ns n => bumpIn ns (n + 1) (ns.getD n default).in_edges_offset) nodes
  ⟨nodes, data, edge_references⟩

/-- `MoreNodes { max_id, next }` (src/arli/src/graph_impl/common.rs). -/
structure MoreNodes where
  max_id : Nat
  next : Nat
  deriving Repr, DecidableEq

/-- `MoreNodes::new(max_id)`. -/
def MoreNodes.new (maxId : Nat) : MoreNodes := ⟨maxId, maxId + 1⟩

/-- `NodesExtension::contains(id)` for `MoreNodes`: `id > max_id && id < next`. -/
def MoreNodes.contains (ext : MoreNodes) (id : Nat) : Bool :=
  decide (ext.max_id < id ∧ id < ext.next)

/-- `NodesExtension::new_node_id` for `MoreNodes`: hand out `next` and advance it. -/
def MoreNodes.newNodeId (ext : MoreNodes) : Nat × MoreNodes :=
  (ext.next, ⟨ext.max_id, ext.next + 1⟩)

/-- `CompactSpatialGraph<NodeData>` (the `blocks` spatial index is not embedded: the
S2 cell arithmetic it stores is an external collaborator and no claim under scrutiny
touches `find_nodes`). -/
structure CompactSpatialGraph (Data : Type) where
  graph : CompactGraph Data
  geometry_refs : List (Nat × Nat)
  points : List Position

/-- `IntoGeometry for &CompactSpatialGraph`:
`RefIterator::from_range(&self.points, &self.geometry_refs[id])`. -/
def CompactSpatialGraph.geometry {D : Type} (g : CompactSpatialGraph D) (id : Nat) :
    List Position :=
  let r := g.geometry_refs.getD id (0, 0)
  refIterList g.points r.1 r.2

/-- `CompactSpatialGraph::number_of_nodes` (delegates to the base compact graph). -/
def CompactSpatialGraph.number_of_nodes {D : Type} (g : CompactSpatialGraph D) : Nat :=
  g.graph.number_of_nodes

/-- `Extensible for CompactSpatialGraph`: `MoreNodes::new(self.number_of_nodes())`. -/
def CompactSpatialGraph.new_extension {D : Type} (g : CompactSpatialGraph D) :
    MoreNodes :=
  MoreNodes.new g.number_of_nodes

/-- C9 confirmed: for `geometry_refs[i] = (s, e)`, `geometry(i)` yields
`points[s], points[s+1], …, points[e-1]` when `s ≤ e` (empty for `s = e`) and
`points[s], points[s-1], …, points[e+1]` when `s > e`. -/
theorem geometry_ref_iteration {D : Type} (g : CompactSpatialGraph D) (i s e : Nat)
    (h : g.geometry_refs.getD i (0, 0) = (s, e)) :
    g.geometry i =
      if s ≤ e then
        (List.range' s (e - s)).map (fun k => g.points.getD k default)
      else
        ((List.range' (e + 1) (s - e)).reverse).map (fun k => g.points.getD k default) := by
  rw [CompactSpatialGraph.geometry]
  rw [h]
  by_cases hse : s ≤ e
  · rw [if_pos hse, refIterList, refIndices_forward s e hse]
  · rw [if_neg hse, refIterList, refIndices_backward s e (by omega)]

/-! ## Claim C10: the sentinel node is included in `number_of_nodes` -/

theorem bumpIn_length (ns : List CGNode) (j d : Nat) :
    (bumpIn ns j d).length = ns.length :=
  List.length_set ..

theorem setIn_length (ns : List CGNode) (j v : Nat) :
    (setIn ns j v).length = ns.length :=
  List.length_set ..

theorem length_foldl_count (l : List (Nat × Nat)) (ns : List CGNode) :
    (l.foldl (fun ns pr => bumpIn ns (pr.1 + 1) 1) ns).length = ns.length := by
  induction l generalizing ns with
  | nil => rfl
  | cons pr l ih => rw [List.foldl_cons, ih, bumpIn_length]

theorem length_foldl_prefixSum (l : List Nat) (ns : List CGNode) :
    (l.foldl (fun ns n => bumpIn ns (n + 1) (ns.getD n default).in_edges_offset)
        ns).length = ns.length := by
  induction l generalizing ns with
  | nil => rfl
  | cons n l ih => rw [List.foldl_cons, ih, bumpIn_length]

theorem from_row_data_nodes_length {D : Type} (data : List D) (offsets : List Nat)
    (out_references : List Nat) :
    (from_row_data data offsets out_references).nodes.length = offsets.length + 1 := by
  simp only [from_row_data]
  rw [length_foldl_prefixSum, setIn_length, length_foldl_count]
  simp

/-- C10 confirmed: a graph built from `N` data entries (and one offset per entry)
reports `number_of_nodes() = N + 1` — the sentinel node appended for offset iteration
is counted — and that `N + 1` is exactly the `max_id` handed to `MoreNodes` when a
`CompactSpatialGraph` over it creates its id extension. -/
theorem number_of_nodes_counts_sentinel {D : Type} (data : List D) (offsets : List Nat)
    (out_references : List Nat) (grefs : List (Nat × Nat)) (pts : List Position)
    (h : offsets.length = data.length) :
    (from_row_data data offsets out_references).number_of_nodes = data.length + 1 ∧
      (CompactSpatialGraph.mk (from_row_data data offsets out_references) grefs
          pts).new_extension.max_id = data.length + 1 := by
  have hn : (from_row_data data offsets out_references).number_of_nodes =
      data.length + 1 := by
    rw [CompactGraph.number_of_nodes, from_row_data_nodes_length, h]
  exact ⟨hn, by
    rw [CompactSpatialGraph.new_extension, CompactSpatialGraph.number_of_nodes]
    rw [MoreNodes.new]
    exact congrArg (fun n => n) hn⟩

/-- C10 witness: one data entry, one offset, no edges. -/
theorem number_of_nodes_counts_sentinel_witness :
    (from_row_data [()] [0] []).number_of_nodes = 1 + 1 ∧
      (CompactSpatialGraph.mk (from_row_data [()] [0] []) [] []).new_extension.max_id =
        1 + 1 := by
  have := number_of_nodes_counts_sentinel [()] [0] [] [] [] rfl
  simpa using this

/-! ## Claim C4: forward/backward multiset symmetry of `from_row_data`

The claim compares, over all node ids `i < N` (the real nodes; the sentinel is id
`N`), the multiset of forward pairs `(i, j)` with `j ∈ forward_neighbors(i)` against
the multiset of pairs `(i, j)` with `i ∈ backward_neighbors(j)`. -/

/-- The multiset (as a list) of `(i, j)` with `j ∈ forward_neighbors(i)`, `i < n`. -/
def fwdPairs {D : Type} (g : CompactGraph D) (n : Nat) : List (Nat × Nat) :=
  (List.range n).flatMap (fun i => (g.forwardNeighbors i).map (fun j => (i, j)))

/-- The multiset (as a list) of `(i, j)` with `i ∈ backward_neighbors(j)`, `j < n`. -/
def bwdPairs {D : Type} (g : CompactGraph D) (n : Nat) : List (Nat × Nat) :=
  (List.range n).flatMap (fun j => (g.backwardNeighbors j).map (fun i => (i, j)))

theorem bumpIn_getD_self (ns : List CGNode) (j d : Nat) (h : j < ns.length) :
    (bumpIn ns j d).getD j default =
      ⟨(ns.getD j default).out_edges_offset,
        (ns.getD j default).in_edges_offset + d⟩ := by
  rw [bumpIn, List.getD_eq_getElem?_getD, List.getElem?_set_self (by omega)]
  rfl

theorem bumpIn_getD_ne (ns : List CGNode) (j d i : Nat) (h : i ≠ j) :
    (bumpIn ns j d).getD i default = ns.getD i default := by
  rw [bumpIn, List.getD_eq_getElem?_getD, List.getElem?_set_ne (by omega),
    List.getD_eq_getElem?_getD]

theorem setIn_getD_self (ns : List CGNode) (j v : Nat) (h : j < ns.length) :
    (setIn ns j v).getD j default =
      ⟨(ns.getD j default).out_edges_offset, v⟩ := by
  rw [setIn, List.getD_eq_getElem?_getD, List.getElem?_set_self (by omega)]
  rfl

theorem setIn_getD_ne (ns : List CGNode) (j v i : Nat) (h : i ≠ j) :
    (setIn ns j v).getD i default = ns.getD i default := by
  rw [setIn, List.getD_eq_getElem?_getD, List.getElem?_set_ne (by omega),
    List.getD_eq_getElem?_getD]

/-- Elements of the middle block of a concatenation, read back by index. -/
theorem slice_middle {α : Type} [Inhabited α] (u v w : List α) :
    (List.range' u.length v.length).map (fun k => (u ++ (v ++ w)).getD k default) =
      v := by
  induction v generalizing u with
  | nil => simp
  | cons b v ih =>
    rw [List.length_cons, List.range'_succ, List.map_cons]
    have hhead : (u ++ (b :: v ++ w)).getD u.length default = b := by
      rw [List.getD_eq_getElem?_getD, List.getElem?_append_right (le_refl _)]
      simp
    rw [hhead]
    have hre : u ++ (b :: v ++ w) = (u ++ [b]) ++ (v ++ w) := by simp
    have hlen : u.length + 1 = (u ++ [b]).length := by simp
    rw [hre, hlen, ih (u ++ [b])]

/-- A list sorted by key decomposes into its `< j`, `= j` and `> j` key blocks. -/
theorem sorted_key_decomp (sl : List (Nat × Nat)) (j : Nat)
    (hs : sl.Pairwise (fun a b => a.1 ≤ b.1)) :
    sl = sl.filter (fun pr => decide (pr.1 < j)) ++
        (sl.filter (fun pr => decide (pr.1 = j)) ++
          sl.filter (fun pr => decide (j < pr.1))) := by
  induction sl with
  | nil => rfl
  | cons a sl ih =>
    obtain ⟨ha, hs'⟩ := List.pairwise_cons.mp hs
    have hnil : ∀ p : Nat × Nat → Bool, (∀ pr ∈ sl, p pr = false) →
        sl.filter p = [] := by
      intro p hp
      rw [List.filter_eq_nil_iff]
      intro pr hpr
      rw [hp pr hpr]
      exact Bool.false_ne_true
    rcases Nat.lt_trichotomy a.1 j with h | h | h
    · simp only [List.filter_cons, decide_eq_true_eq]
      rw [if_pos h, if_neg (by omega), if_neg (by omega)]
      rw [List.cons_append]
      rw [← ih hs']
    · have hlt : sl.filter (fun pr => decide (pr.1 < j)) = [] := by
        refine hnil _ fun pr hpr => ?_
        have := ha pr hpr
        simp only [decide_eq_false_iff_not]
        omega
      simp only [List.filter_cons, decide_eq_true_eq]
      rw [if_neg (by omega), if_pos h, if_neg (by omega)]
      rw [hlt, List.nil_append, List.cons_append]
      have := ih hs'
      rw [hlt, List.nil_append] at this
      rw [← this]
    · have hlt : sl.filter (fun pr => decide (pr.1 < j)) = [] := by
        refine hnil _ fun pr hpr => ?_
        have := ha pr hpr
        simp only [decide_eq_false_iff_not]
        omega
      have heq : sl.filter (fun pr => decide (pr.1 = j)) = [] := by
        refine hnil _ fun pr hpr => ?_
        have := ha pr hpr
        simp only [decide_eq_false_iff_not]
        omega
      simp only [List.filter_cons, decide_eq_true_eq]
      rw [if_neg (by omega), if_neg (by omega), if_pos h]
      rw [hlt, heq, List.nil_append, List.nil_append]
      have := ih hs'
      rw [hlt, heq, List.nil_append, List.nil_append] at this
      rw [← this]

theorem countP_lt_succ (l : List (Nat × Nat)) (j : Nat) :
    l.countP (fun pr => decide (pr.1 < j + 1)) =
      l.countP (fun pr => decide (pr.1 < j)) +
        l.countP (fun pr => decide (pr.1 = j)) := by
  induction l with
  | nil => rfl
  | cons a l ih =>
    simp only [List.countP_cons, decide_eq_true_eq]
    rw [ih]
    by_cases h1 : a.1 < j
    · rw [if_pos (by omega), if_pos h1, if_neg (by omega)]
      omega
    · by_cases h2 : a.1 = j
      · rw [if_pos (by omega), if_neg h1, if_pos h2]
        omega
      · rw [if_neg (by omega), if_neg h1, if_neg h2]
        omega

/-- Effect of the in-degree counting fold of `from_row_data` on each array slot. -/
theorem countFold_getD (l : List (Nat × Nat)) (ns : List CGNode)
    (hl : ∀ pr ∈ l, pr.1 + 1 < ns.length) (j : Nat) :
    (l.foldl (fun ns pr => bumpIn ns (pr.1 + 1) 1) ns).getD j default =
      ⟨(ns.getD j default).out_edges_offset,
        (ns.getD j default).in_edges_offset +
          l.countP (fun pr => decide (pr.1 + 1 = j))⟩ := by
  induction l generalizing ns with
  | nil => simp only [List.foldl_nil, List.countP_nil, Nat.add_zero]
  | cons pr l ih =>
    rw [List.foldl_cons]
    rw [ih _ (fun q hq => by
      rw [bumpIn_length]; exact hl q (List.mem_cons_of_mem _ hq))]
    by_cases hj : j = pr.1 + 1
    · subst hj
      rw [bumpIn_getD_self _ _ _ (hl pr (List.mem_cons_self _ _))]
      simp only [List.countP_cons, decide_eq_true_eq, if_true]
      congr 1
      omega
    · rw [bumpIn_getD_ne _ _ _ _ (by omega)]
      simp only [List.countP_cons, decide_eq_true_eq]
      rw [if_neg (by omega)]
      congr 1

/-- The running prefix sums `accIn ns j = ns[0].in + ns[1].in + … + ns[j].in`. -/
def accIn (ns : List CGNode) : Nat → Nat
  | 0 => (ns.getD 0 default).in_edges_offset
  | j + 1 => accIn ns j + (ns.getD (j + 1) default).in_edges_offset

/-- Effect of the prefix-sum fold of `from_row_data` on each array slot. -/
theorem prefixFold_getD (ns : List CGNode) :
    ∀ m, m < ns.length → ∀ j,
      ((List.range m).foldl
          (fun ns n => bumpIn ns (n + 1) (ns.getD n default).in_edges_offset)
          ns).getD j default =
        if j ≤ m then ⟨(ns.getD j default).out_edges_offset, accIn ns j⟩
        else ns.getD j default := by
  intro m
  induction m with
  | zero =>
    intro hm j
    simp only [List.range_zero, List.foldl_nil]
    by_cases hj : j = 0
    · subst hj
      rw [if_pos (le_refl 0)]
      rfl
    · rw [if_neg (by omega)]
  | succ m ih =>
    intro hm j
    rw [List.range_succ, List.foldl_append, List.foldl_cons, List.foldl_nil]
    have hlen : ((List.range m).foldl
        (fun ns n => bumpIn ns (n + 1) (ns.getD n default).in_edges_offset)
        ns).length = ns.length := length_foldl_prefixSum _ _
    have hR := ih (by omega)
    by_cases hj : j = m + 1
    · subst hj
      rw [bumpIn_getD_self _ _ _ (by omega)]
      rw [hR (m + 1), if_neg (by omega), hR m, if_pos (le_refl m)]
      rw [if_pos (le_refl (m + 1))]
      congr 1
      show (ns.getD (m + 1) default).in_edges_offset + accIn ns m = accIn ns (m + 1)
      rw [accIn]
      omega
    · rw [bumpIn_getD_ne _ _ _ _ (by omega)]
      rw [hR j]
      by_cases hjm : j ≤ m
      · rw [if_pos hjm, if_pos (by omega)]
      · rw [if_neg hjm, if_neg (by omega)]

/-- Bucketing a multiset of pairs by key recovers the multiset, when every key is
below the bucket bound. -/
theorem sum_filter_key (N : Nat) (s : Multiset (Nat × Nat))
    (h : ∀ pr ∈ s, pr.1 < N) :
    (∑ j ∈ Finset.range N, s.filter (fun pr => pr.1 = j)) = s := by
  induction s using Multiset.induction with
  | empty => simp
  | cons a s ih =>
    have ha : a.1 < N := h a (Multiset.mem_cons_self a s)
    have hs : ∀ pr ∈ s, pr.1 < N := fun pr hpr => h pr (Multiset.mem_cons_of_mem hpr)
    simp only [Multiset.filter_cons]
    rw [Finset.sum_add_distrib, ih hs]
    have : (∑ j ∈ Finset.range N, if a.1 = j then ({a} : Multiset (Nat × Nat)) else 0) =
        {a} := by
      rw [Finset.sum_ite_eq (Finset.range N) a.1 (fun _ => ({a} : Multiset (Nat × Nat)))]
      rw [if_pos (Finset.mem_range.mpr ha)]
    rw [this, Multiset.singleton_add]

/-- Coercion of `flatMap` over `range` to a `Finset.range` sum of multisets. -/
theorem coe_flatMap_range {α : Type} (f : Nat → List α) (N : Nat) :
    (↑((List.range N).flatMap f) : Multiset α) =
      ∑ j ∈ Finset.range N, (↑(f j) : Multiset α) := by
  induction N with
  | zero => simp
  | succ N ih =>
    rw [List.range_succ, List.flatMap_append, Finset.sum_range_succ, ← ih]
    rw [← Multiset.coe_add]
    simp

/-- The `(to, from)` pair list `in_references_tmp` collected by `from_row_data`
before sorting (same expression as inside `from_row_data`). -/
def tmpPairs {D : Type} (data : List D) (offsets : List Nat)
    (out_references : List Nat) : List (Nat × Nat) :=
  let nodes : List CGNode :=
    offsets.map (fun o => ⟨o, 0⟩) ++ [⟨out_references.length, 0⟩]
  (List.range data.length).flatMap (fun src =>
    (refIterList out_references
        (nodes.getD src default).out_edges_offset
        (nodes.getD (src + 1) default).out_edges_offset).map (fun t => (t, src)))

/-- The sorted pair list of `from_row_data`. -/
def sortedPairs {D : Type} (data : List D) (offsets : List Nat)
    (out_references : List Nat) : List (Nat × Nat) :=
  (tmpPairs data offsets out_references).mergeSort pairLe

theorem from_row_data_edge_references {D : Type} (data : List D) (offsets : List Nat)
    (out_references : List Nat) :
    (from_row_data data offsets out_references).edge_references =
      out_references ++ (sortedPairs data offsets out_references).map (fun pr => pr.2) :=
  rfl

theorem from_row_data_nodes {D : Type} (data : List D) (offsets : List Nat)
    (out_references : List Nat) :
    (from_row_data data offsets out_references).nodes =
      (List.range data.length).foldl
        (fun ns n => bumpIn ns (n + 1) (ns.getD n default).in_edges_offset)
        (setIn
          ((sortedPairs data offsets out_references).foldl
            (fun ns pr => bumpIn ns (pr.1 + 1) 1)
            (offsets.map (fun o => ⟨o, 0⟩) ++ [⟨out_references.length, 0⟩]))
          0 out_references.length) :=
  rfl

theorem pairLe_trans (a b c : Nat × Nat) (hab : pairLe a b = true)
    (hbc : pairLe b c = true) : pairLe a c = true := by
  simp only [pairLe, decide_eq_true_eq] at hab hbc ⊢
  omega

theorem pairLe_total (a b : Nat × Nat) : (pairLe a b || pairLe b a) = true := by
  simp only [pairLe, Bool.or_eq_true, decide_eq_true_eq]
  omega

theorem sortedPairs_pairwise {D : Type} (data : List D) (offsets : List Nat)
    (out_references : List Nat) :
    (sortedPairs data offsets out_references).Pairwise (fun a b => a.1 ≤ b.1) := by
  have := List.sorted_mergeSort pairLe_trans pairLe_total
    (tmpPairs data offsets out_references)
  refine this.imp ?_
  intro a b hab
  simp only [pairLe, decide_eq_true_eq] at hab
  omega

theorem sorted_getD_mono (l : List Nat) (hs : List.Sorted (· ≤ ·) l) (i j : Nat)
    (hij : i ≤ j) (hj : j < l.length) : l.getD i 0 ≤ l.getD j 0 := by
  rcases Nat.eq_or_lt_of_le hij with rfl | hlt
  · exact le_refl _
  · rw [List.getD_eq_getElem _ _ (by omega), List.getD_eq_getElem _ _ hj]
    exact List.pairwise_iff_getElem.mp hs i j (by omega) hj hlt

theorem castOut_getD_last (offsets : List Nat) (E : Nat) :
    (offsets ++ [E]).getD offsets.length 0 = E := by
  rw [List.getD_eq_getElem?_getD, List.getElem?_append_right (le_refl _)]
  simp

theorem nodes0_getD (offsets : List Nat) (E : Nat) (i : Nat)
    (hi : i < offsets.length + 1) :
    (offsets.map (fun o => (⟨o, 0⟩ : CGNode)) ++ [(⟨E, 0⟩ : CGNode)]).getD i default =
      ⟨(offsets ++ [E]).getD i 0, 0⟩ := by
  have h1 : offsets.map (fun o => (⟨o, 0⟩ : CGNode)) ++ [(⟨E, 0⟩ : CGNode)] =
      (offsets ++ [E]).map (fun o => (⟨o, 0⟩ : CGNode)) := by
    rw [List.map_append]
    rfl
  rw [h1, List.getD_eq_getElem?_getD, List.getElem?_map]
  have hi' : i < (offsets ++ [E]).length := by simp; omega
  rw [List.getElem?_eq_getElem hi']
  rw [List.getD_eq_getElem _ _ hi']
  rfl

/-- The node array of `from_row_data`, slot by slot: outgoing offsets are the input
offsets (with sentinel `E`), incoming offsets are `E` plus the number of sorted pairs
with key below the slot index. -/
theorem from_row_data_nodes_getD {D : Type} (data : List D) (offsets : List Nat)
    (out_references : List Nat)
    (hlen : offsets.length = data.length)
    (hkeys : ∀ pr ∈ sortedPairs data offsets out_references, pr.1 < data.length)
    (i : Nat) (hi : i ≤ data.length) :
    (from_row_data data offsets out_references).nodes.getD i default =
      ⟨(offsets ++ [out_references.length]).getD i 0,
        out_references.length +
          (sortedPairs data offsets out_references).countP
            (fun pr => decide (pr.1 < i))⟩ := by
  set E := out_references.length with hE
  set sl := sortedPairs data offsets out_references with hsl
  set ns0 : List CGNode := offsets.map (fun o => ⟨o, 0⟩) ++ [⟨E, 0⟩] with hns0
  have hns0len : ns0.length = data.length + 1 := by
    rw [hns0]
    simp [hlen]
  have hcount : ∀ j, ((sl.foldl (fun ns pr => bumpIn ns (pr.1 + 1) 1) ns0).getD j
      default) = ⟨(ns0.getD j default).out_edges_offset,
        (ns0.getD j default).in_edges_offset +
          sl.countP (fun pr => decide (pr.1 + 1 = j))⟩ :=
    countFold_getD sl ns0 (fun pr hpr => by rw [hns0len]; have := hkeys pr hpr; omega)
  set ns1 := setIn (sl.foldl (fun ns pr => bumpIn ns (pr.1 + 1) 1) ns0) 0 E with hns1
  have hns1len : ns1.length = data.length + 1 := by
    rw [hns1, setIn_length, length_foldl_count, hns0len]
  have hns1_getD : ∀ j, j ≤ data.length →
      ns1.getD j default = ⟨(ns0.getD j default).out_edges_offset,
        if j = 0 then E else sl.countP (fun pr => decide (pr.1 + 1 = j))⟩ := by
    intro j hj
    by_cases hj0 : j = 0
    · subst hj0
      rw [hns1, setIn_getD_self _ _ _ (by rw [length_foldl_count]; omega), hcount 0]
      rw [if_pos rfl]
    · rw [hns1, setIn_getD_ne _ _ _ _ hj0, hcount j, if_neg hj0]
      have h0 : (ns0.getD j default).in_edges_offset = 0 := by
        rw [nodes0_getD offsets E j (by omega)]
      rw [h0, Nat.zero_add]
  have haccIn : ∀ j, j ≤ data.length →
      accIn ns1 j = E + sl.countP (fun pr => decide (pr.1 < j)) := by
    intro j
    induction j with
    | zero =>
      intro _
      rw [accIn, hns1_getD 0 (by omega)]
      have : sl.countP (fun pr => decide (pr.1 < 0)) = 0 := by
        rw [List.countP_eq_zero]
        intro pr _
        simp
      rw [this]
      rfl
    | succ j ih =>
      intro hj
      rw [accIn, ih (by omega), hns1_getD (j + 1) hj, if_neg (by omega)]
      have hcongr : sl.countP (fun pr => decide (pr.1 + 1 = j + 1)) =
          sl.countP (fun pr => decide (pr.1 = j)) := by
        refine List.countP_congr fun pr _ => ?_
        rcases Nat.decEq pr.1 j with h | h
        · rw [decide_eq_false (by omega), decide_eq_false (by omega)]
        · rw [decide_eq_true (by omega), decide_eq_true (by omega)]
      rw [hcongr, countP_lt_succ]
      dsimp only
      omega
  have hmain : (((List.range data.length).foldl
      (fun ns n => bumpIn ns (n + 1) (ns.getD n default).in_edges_offset)
      ns1).getD i default) =
      ⟨(offsets ++ [E]).getD i 0, E + sl.countP (fun pr => decide (pr.1 < i))⟩ := by
    rw [prefixFold_getD ns1 data.length (by omega) i, if_pos hi, haccIn i hi,
      hns1_getD i hi]
    rw [nodes0_getD offsets E i (by omega)]
  rw [from_row_data_nodes]
  exact hmain

theorem flatMap_congr {α β : Type} {l : List α} {f g : α → List β}
    (h : ∀ a ∈ l, f a = g a) : l.flatMap f = l.flatMap g := by
  induction l with
  | nil => rfl
  | cons a l ih =>
    rw [List.flatMap_cons, List.flatMap_cons, h a (List.mem_cons_self _ _),
      ih fun b hb => h b (List.mem_cons_of_mem _ hb)]

theorem refIterList_append_left {α : Type} [Inhabited α] (u v : List α) (a b : Nat)
    (hab : a ≤ b) (hb : b ≤ u.length) :
    refIterList (u ++ v) a b = refIterList u a b := by
  rw [refIterList, refIterList, refIndices_forward a b hab]
  refine List.map_congr_left fun k hk => ?_
  have hk' := List.mem_range'_1.mp hk
  rw [List.getD_eq_getElem?_getD, List.getElem?_append,
    if_pos (show k < u.length by omega), ← List.getD_eq_getElem?_getD]

/-- Every key of the sorted pair list is a valid target node id. -/
theorem sortedPairs_keys {D : Type} (data : List D) (offsets : List Nat)
    (out_references : List Nat)
    (hlen : offsets.length = data.length)
    (hmono : List.Sorted (· ≤ ·) (offsets ++ [out_references.length]))
    (htgt : ∀ t ∈ out_references, t < data.length) :
    ∀ pr ∈ sortedPairs data offsets out_references, pr.1 < data.length := by
  intro pr hpr
  have htmp : pr ∈ tmpPairs data offsets out_references :=
    (List.mergeSort_perm (tmpPairs data offsets out_references) pairLe).mem_iff.mp hpr
  rw [tmpPairs] at htmp
  simp only [List.mem_flatMap, List.mem_map, List.mem_range] at htmp
  obtain ⟨src, hsrc, t, ht, hpr'⟩ := htmp
  rw [refIterList] at ht
  simp only [List.mem_map] at ht
  obtain ⟨k, hk, hkt⟩ := ht
  have hco : (offsets ++ [out_references.length]).length = data.length + 1 := by
    simp [hlen]
  rw [nodes0_getD offsets out_references.length src (by omega),
    nodes0_getD offsets out_references.length (src + 1) (by omega)] at hk
  have hmo : (offsets ++ [out_references.length]).getD src 0 ≤
      (offsets ++ [out_references.length]).getD (src + 1) 0 :=
    sorted_getD_mono _ hmono src (src + 1) (by omega) (by omega)
  have hup : (offsets ++ [out_references.length]).getD (src + 1) 0 ≤
      out_references.length := by
    have := sorted_getD_mono _ hmono (src + 1) offsets.length (by omega) (by omega)
    rwa [castOut_getD_last] at this
  rw [refIndices_forward _ _ hmo] at hk
  have hk2 := List.mem_range'_1.mp hk
  have hkE : k < out_references.length := by omega
  have htmem : t ∈ out_references := by
    rw [← hkt, List.getD_eq_getElem _ _ hkE]
    exact List.getElem_mem hkE
  have := htgt t htmem
  rw [← hpr']
  exact this

/-- The forward pair list of the built graph is the swap of the raw pair list. -/
theorem fwdPairs_eq {D : Type} (data : List D) (offsets : List Nat)
    (out_references : List Nat)
    (hlen : offsets.length = data.length)
    (hmono : List.Sorted (· ≤ ·) (offsets ++ [out_references.length]))
    (htgt : ∀ t ∈ out_references, t < data.length) :
    fwdPairs (from_row_data data offsets out_references) data.length =
      (tmpPairs data offsets out_references).map (fun pr => (pr.2, pr.1)) := by
  have hkeys := sortedPairs_keys data offsets out_references hlen hmono htgt
  rw [fwdPairs, tmpPairs, List.map_flatMap]
  refine flatMap_congr fun i hi => ?_
  have hiN : i < data.length := List.mem_range.mp hi
  have hco : (offsets ++ [out_references.length]).length = data.length + 1 := by
    simp [hlen]
  rw [List.map_map]
  rw [CompactGraph.forwardNeighbors,
    from_row_data_nodes_getD data offsets out_references hlen hkeys i (by omega),
    from_row_data_nodes_getD data offsets out_references hlen hkeys (i + 1) hiN,
    from_row_data_edge_references]
  rw [nodes0_getD offsets out_references.length i (by omega),
    nodes0_getD offsets out_references.length (i + 1) (by omega)]
  have hmo : (offsets ++ [out_references.length]).getD i 0 ≤
      (offsets ++ [out_references.length]).getD (i + 1) 0 :=
    sorted_getD_mono _ hmono i (i + 1) (by omega) (by omega)
  have hup : (offsets ++ [out_references.length]).getD (i + 1) 0 ≤
      out_references.length := by
    have := sorted_getD_mono _ hmono (i + 1) offsets.length (by omega) (by omega)
    rwa [castOut_getD_last] at this
  rw [refIterList_append_left _ _ _ _ hmo hup]
  rfl

/-- The backward neighbors of node `j` of the built graph are the `from`s of the
sorted pairs with key `j`. -/
theorem bwdNeighbors_eq {D : Type} (data : List D) (offsets : List Nat)
    (out_references : List Nat)
    (hlen : offsets.length = data.length)
    (hmono : List.Sorted (· ≤ ·) (offsets ++ [out_references.length]))
    (htgt : ∀ t ∈ out_references, t < data.length)
    (j : Nat) (hj : j < data.length) :
    (from_row_data data offsets out_references).backwardNeighbors j =
      ((sortedPairs data offsets out_references).filter
          (fun pr => decide (pr.1 = j))).map (fun pr => pr.2) := by
  have hkeys := sortedPairs_keys data offsets out_references hlen hmono htgt
  rw [CompactGraph.backwardNeighbors,
    from_row_data_nodes_getD data offsets out_references hlen hkeys j (by omega),
    from_row_data_nodes_getD data offsets out_references hlen hkeys (j + 1) hj,
    from_row_data_edge_references]
  dsimp only
  set sl := sortedPairs data offsets out_references with hsl
  set A := sl.filter (fun pr => decide (pr.1 < j)) with hA
  set B := sl.filter (fun pr => decide (pr.1 = j)) with hB
  set C := sl.filter (fun pr => decide (j < pr.1)) with hC
  have hdec : sl = A ++ (B ++ C) :=
    sorted_key_decomp sl j (sortedPairs_pairwise data offsets out_references)
  have hsplit : out_references ++ sl.map (fun pr => pr.2) =
      (out_references ++ A.map (fun pr => pr.2)) ++
        (B.map (fun pr => pr.2) ++ C.map (fun pr => pr.2)) := by
    conv_lhs => rw [hdec]
    rw [List.map_append, List.map_append, List.append_assoc]
  rw [hsplit]
  have hlenA : (out_references ++ A.map (fun pr => pr.2)).length =
      out_references.length + sl.countP (fun pr => decide (pr.1 < j)) := by
    rw [List.length_append, List.length_map, hA, List.countP_eq_length_filter]
  have hlenB : (B.map (fun pr => pr.2)).length =
      sl.countP (fun pr => decide (pr.1 = j)) := by
    rw [List.length_map, hB, List.countP_eq_length_filter]
  have hslice := slice_middle (out_references ++ A.map (fun pr => pr.2))
    (B.map (fun pr => pr.2)) (C.map (fun pr => pr.2))
  rw [hlenA, hlenB] at hslice
  rw [refIterList, refIndices_forward _ _ (by
    have := countP_lt_succ sl j
    omega)]
  have harith : out_references.length + sl.countP (fun pr => decide (pr.1 < j + 1)) -
      (out_references.length + sl.countP (fun pr => decide (pr.1 < j))) =
      sl.countP (fun pr => decide (pr.1 = j)) := by
    have := countP_lt_succ sl j
    omega
  rw [harith]
  exact hslice

/-- C4 confirmed: for a graph built by `from_row_data` from `N` data entries,
nondecreasing offsets starting at 0 (bounded by the number of targets), and targets
all below `N`, the multiset of pairs `(i, j)` with `j ∈ forward_neighbors(i)` equals
the multiset of pairs `(i, j)` with `i ∈ backward_neighbors(j)` (ids `i, j < N`). -/
theorem compactGraph_forward_backward_pairs_perm {D : Type} (data : List D)
    (offsets : List Nat) (out_references : List Nat)
    (h0 : offsets.headD 0 = 0)
    (hlen : offsets.length = data.length)
    (hmono : List.Sorted (· ≤ ·) (offsets ++ [out_references.length]))
    (htgt : ∀ t ∈ out_references, t < data.length) :
    (↑(fwdPairs (from_row_data data offsets out_references) data.length) :
        Multiset (Nat × Nat)) =
      ↑(bwdPairs (from_row_data data offsets out_references) data.length) := by
  have hkeys := sortedPairs_keys data offsets out_references hlen hmono htgt
  set sl := sortedPairs data offsets out_references with hsl
  have hbwd : bwdPairs (from_row_data data offsets out_references) data.length =
      ((List.range data.length).flatMap
          (fun j => sl.filter (fun pr => decide (pr.1 = j)))).map
        (fun pr => (pr.2, pr.1)) := by
    rw [bwdPairs, List.map_flatMap]
    refine flatMap_congr fun j hj => ?_
    have hjN : j < data.length := List.mem_range.mp hj
    rw [bwdNeighbors_eq data offsets out_references hlen hmono htgt j hjN,
      List.map_map]
    refine List.map_congr_left fun pr hpr => ?_
    have : pr.1 = j := by
      have := List.of_mem_filter hpr
      simpa using this
    simp [this]
  have hperm1 : ((List.range data.length).flatMap
      (fun j => sl.filter (fun pr => decide (pr.1 = j)))).Perm sl := by
    rw [← Multiset.coe_eq_coe, coe_flatMap_range]
    have hcoe : ∀ j, (↑(sl.filter (fun pr => decide (pr.1 = j))) : Multiset (Nat × Nat)) =
        Multiset.filter (fun pr => pr.1 = j) (↑sl) := by
      intro j
      rw [Multiset.filter_coe]
    rw [Finset.sum_congr rfl fun j _ => hcoe j]
    exact sum_filter_key data.length (↑sl) fun pr hpr =>
      hkeys pr (Multiset.mem_coe.mp hpr)
  have hfwd := fwdPairs_eq data offsets out_references hlen hmono htgt
  have hperm2 : (tmpPairs data offsets out_references).Perm sl :=
    (List.mergeSort_perm (tmpPairs data offsets out_references) pairLe).symm
  rw [Multiset.coe_eq_coe, hfwd, hbwd]
  exact (hperm2.map (fun pr => (pr.2, pr.1))).trans
    ((hperm1.map (fun pr => (pr.2, pr.1))).symm)

/-- C4 witness: the S1 scenario graph (`data = 4` entries, `out_off = [0,2,3,4]`,
`out_refs = [1,3,2,3]`), hypotheses discharged concretely. -/
theorem compactGraph_forward_backward_pairs_perm_witness :
    (↑(fwdPairs (from_row_data ["a", "b", "c", "d"] [0, 2, 3, 4] [1, 3, 2, 3]) 4) :
        Multiset (Nat × Nat)) =
      ↑(bwdPairs (from_row_data ["a", "b", "c", "d"] [0, 2, 3, 4] [1, 3, 2, 3]) 4) :=
  compactGraph_forward_backward_pairs_perm ["a", "b", "c", "d"] [0, 2, 3, 4]
    [1, 3, 2, 3] rfl rfl (by decide) (by decide)

/-! ## Overlay graph (src/arli/src/overlay.rs) — claims C7 and C8

The overlay is generic over any base graph exposing forward/backward neighbors,
geometry and an id extension; that capability bundle is embedded as `BaseGraph`
(for `CompactSpatialGraph` the extension seed `maxId` is `number_of_nodes`, cf. C10).
`cut_geometry_before/after` (src/arli/src/spatial.rs) delegate the per-segment
projection to the geo crate's `line_locate_point`, an external collaborator; the
embedding takes that projection as an uninterpreted parameter `locate`. -/

/-- `SnappedPosition { snapped, distance, factor }`. -/
structure SnappedPosition where
  snapped : Position
  distance : ℚ
  factor : ℚ
  deriving DecidableEq, Repr

/-- The segment list of a polyline (`LineString::lines()`). -/
def linesOf : List Position → List (Position × Position)
  | a :: b :: rest => (a, b) :: linesOf (b :: rest)
  | _ => []

/-- `cut_geometry_before(geometry, point)`: skip the leading segments whose
`line_locate_point` factor for `point` is ≥ 1, then emit `point` followed by the end
points of the remaining segments. -/
def cut_geometry_before (locate : Position → Position → Position → Option ℚ)
    (geometry : List Position) (point : Position) : List Position :=
  let segs := (linesOf geometry).dropWhile (fun l =>
    match locate l.1 l.2 point with
    | some factor => decide (factor ≥ 1)
    | none => false)
  point :: segs.map (fun l => l.2)

/-- `cut_geometry_after(geometry, point)`: the start points of the leading segments
whose factor is ≥ 1, followed by `point`. -/
def cut_geometry_after (locate : Position → Position → Position → Option ℚ)
    (geometry : List Position) (point : Position) : List Position :=
  ((linesOf geometry).takeWhile (fun l =>
    match locate l.1 l.2 point with
    | some factor => decide (factor ≥ 1)
    | none => false)).map (fun l => l.1) ++ [point]

/-- The base-graph capabilities `OverlayGraph` needs: forward/backward neighbors,
geometry, and the `Extensible` seed (`maxId`, from which `new_extension` builds
`MoreNodes::new(maxId)`). -/
structure BaseGraph where
  nbrsF : Nat → List Nat
  nbrsB : Nat → List Nat
  geom : Nat → List Position
  maxId : Nat

/-- `OverlayNode { base_id, out_edges, in_edges, geometry, snapped_position }`. -/
structure OverlayNode where
  base_id : Nat
  out_edges : List Nat
  in_edges : List Nat
  geometry : List Position
  snapped_position : SnappedPosition

/-- `OverlayNode::new(base_id, positions, snapped_position)`: empty edge lists. -/
def OverlayNode.mkNew (baseId : Nat) (positions : List Position)
    (sp : SnappedPosition) : OverlayNode :=
  ⟨baseId, [], [], positions, sp⟩

/-- `OverlayGraph { base_graph, overlay_nodes, extended_ids }` (the `HashMap` as a
function into `Option`). -/
structure OverlayGraph where
  base_graph : BaseGraph
  overlay_nodes : Nat → Option OverlayNode
  extended_ids : MoreNodes

/-- `OverlayGraph::new(graph)`. -/
def OverlayGraph.new (base : BaseGraph) : OverlayGraph :=
  ⟨base, fun _ => none, MoreNodes.new base.maxId⟩

/-- `OverlayGraph::add_origin(base_node_id, snapped_position)`: allocate a fresh id,
`or_insert` an overlay node whose geometry is the cut of the base geometry at the
snap and whose stored snap carries `factor = 1.0 - factor` (the source's own TODO
notes this), then set its `out_edges` to the materialized forward neighbors of the
base node.  `MoreNodes::new_node_id` always returns `Some`, so the embedding returns
the state together with the allocated id. -/
def add_origin (locate : Position → Position → Position → Option ℚ)
    (g : OverlayGraph) (baseNodeId : Nat) (sp : SnappedPosition) :
    OverlayGraph × Option Nat :=
  let (id, ext) := g.extended_ids.newNodeId
  let node := (g.overlay_nodes id).getD
    (OverlayNode.mkNew baseNodeId
      (cut_geometry_before locate (g.base_graph.geom baseNodeId) sp.snapped)
      { snapped := sp.snapped, factor := 1 - sp.factor, distance := sp.distance })
  let node := { node with out_edges := g.base_graph.nbrsF baseNodeId }
  (⟨g.base_graph,
    fun n => if n = id then some node else g.overlay_nodes n,
    ext⟩, some id)

/-- `OverlayGraph::add_destination(base_node_id, snapped_position)`: symmetric —
`in_edges` from the backward neighbors, `cut_geometry_after`, snap stored unchanged. -/
def add_destination (locate : Position → Position → Position → Option ℚ)
    (g : OverlayGraph) (baseNodeId : Nat) (sp : SnappedPosition) :
    OverlayGraph × Option Nat :=
  let (id, ext) := g.extended_ids.newNodeId
  let node := (g.overlay_nodes id).getD
    (OverlayNode.mkNew baseNodeId
      (cut_geometry_after locate (g.base_graph.geom baseNodeId) sp.snapped)
      sp)
  let node := { node with in_edges := g.base_graph.nbrsB baseNodeId }
  (⟨g.base_graph,
    fun n => if n = id then some node else g.overlay_nodes n,
    ext⟩, some id)

/-- `IntoNeighbors<Forward> for &OverlayGraph`: overlay ids answer from the overlay
map (`unwrap`, never missing for handed-out ids — modelled by an empty default);
all other ids delegate to the base graph. -/
def OverlayGraph.neighborsF (g : OverlayGraph) (id : Nat) : List Nat :=
  if g.extended_ids.contains id then
    match g.overlay_nodes id with
    | some n => n.out_edges
    | none => []
  else g.base_graph.nbrsF id

/-- `IntoNeighbors<Backward> for &OverlayGraph`. -/
def OverlayGraph.neighborsB (g : OverlayGraph) (id : Nat) : List Nat :=
  if g.extended_ids.contains id then
    match g.overlay_nodes id with
    | some n => n.in_edges
    | none => []
  else g.base_graph.nbrsB id

/-- `IntoGeometry for &OverlayGraph`. -/
def OverlayGraph.geometry (g : OverlayGraph) (id : Nat) : List Position :=
  if g.extended_ids.contains id then
    match g.overlay_nodes id with
    | some n => n.geometry
    | none => []
  else g.base_graph.geom id

/-- A query-time mutation of the overlay: one `add_origin` or `add_destination`. -/
inductive OverlayCmd where
  | origin (baseId : Nat) (sp : SnappedPosition)
  | destination (baseId : Nat) (sp : SnappedPosition)

/-- Apply one overlay mutation. -/
def applyCmd (locate : Position → Position → Position → Option ℚ)
    (g : OverlayGraph) (c : OverlayCmd) : OverlayGraph :=
  match c with
  | .origin b sp => (add_origin locate g b sp).1
  | .destination b sp => (add_destination locate g b sp).1

/-- An overlay built over `base` by a sequence of `add_origin`/`add_destination`
calls. -/
def applyCmds (locate : Position → Position → Position → Option ℚ)
    (base : BaseGraph) (cs : List OverlayCmd) : OverlayGraph :=
  cs.foldl (applyCmd locate) (OverlayGraph.new base)

/-- State invariant of an overlay: the base is the original one, the extension range
sits strictly above the base ids, and ids not yet handed out have no overlay node. -/
def OverlayInv (base : BaseGraph) (g : OverlayGraph) : Prop :=
  g.base_graph = base ∧
    g.extended_ids.max_id = base.maxId ∧
    base.maxId < g.extended_ids.next ∧
    ∀ n, g.extended_ids.next ≤ n → g.overlay_nodes n = none

theorem overlayInv_new (base : BaseGraph) : OverlayInv base (OverlayGraph.new base) :=
  ⟨rfl, rfl, Nat.lt_succ_self _, fun _ _ => rfl⟩

theorem overlayInv_applyCmd (locate : Position → Position → Position → Option ℚ)
    (base : BaseGraph) (g : OverlayGraph) (c : OverlayCmd)
    (h : OverlayInv base g) : OverlayInv base (applyCmd locate g c) := by
  obtain ⟨hb, hm, hlt, hnone⟩ := h
  cases c with
  | origin b sp =>
    refine ⟨hb, hm,
      by simp only [applyCmd, add_origin, MoreNodes.newNodeId]; omega, ?_⟩
    intro n hn
    simp only [applyCmd, add_origin, MoreNodes.newNodeId] at hn ⊢
    rw [if_neg (by omega)]
    exact hnone n (by omega)
  | destination b sp =>
    refine ⟨hb, hm,
      by simp only [applyCmd, add_destination, MoreNodes.newNodeId]; omega, ?_⟩
    intro n hn
    simp only [applyCmd, add_destination, MoreNodes.newNodeId] at hn ⊢
    rw [if_neg (by omega)]
    exact hnone n (by omega)

theorem overlayInv_applyCmds (locate : Position → Position → Position → Option ℚ)
    (base : BaseGraph) (cs : List OverlayCmd) :
    OverlayInv base (applyCmds locate base cs) := by
  rw [applyCmds]
  generalize hg : OverlayGraph.new base = g0
  have h0 : OverlayInv base g0 := hg ▸ overlayInv_new base
  clear hg
  induction cs generalizing g0 with
  | nil => exact h0
  | cons c cs ih =>
    exact ih _ (overlayInv_applyCmd locate base g0 c h0)

/-- C7 confirmed: after any sequence of `add_origin`/`add_destination` calls, every
forward-neighbor, backward-neighbor and geometry query at an id belonging to the base
graph (`id ≤ maxId`, outside the extension's range) returns exactly the base graph's
answer, and the stored base graph itself is unchanged. -/
theorem overlay_base_queries_delegate
    (locate : Position → Position → Position → Option ℚ) (base : BaseGraph)
    (cs : List OverlayCmd) (id : Nat) (hid : id ≤ base.maxId) :
    (applyCmds locate base cs).neighborsF id = base.nbrsF id ∧
      (applyCmds locate base cs).neighborsB id = base.nbrsB id ∧
      (applyCmds locate base cs).geometry id = base.geom id ∧
      (applyCmds locate base cs).base_graph = base := by
  obtain ⟨hb, hm, -, -⟩ := overlayInv_applyCmds locate base cs
  have hc : (applyCmds locate base cs).extended_ids.contains id = false := by
    simp only [MoreNodes.contains, decide_eq_false_iff_not, not_and]
    intro hlt
    omega
  refine ⟨?_, ?_, ?_, hb⟩ <;>
    simp [OverlayGraph.neighborsF, OverlayGraph.neighborsB, OverlayGraph.geometry,
      hc, hb]

/-- The S5-style base graph of the C7 witness: node 2 with forward neighbors
`{3, 4}` and backward neighbors `{0, 1}`, extension seeded at `maxId = 5`. -/
def c7Base : BaseGraph :=
  ⟨fun n => if n = 2 then [3, 4] else [],
    fun n => if n = 2 then [0, 1] else [], fun _ => [], 5⟩

/-- An uninterpreted projection for the C7 witness (never reports a factor). -/
def c7Locate : Position → Position → Position → Option ℚ := fun _ _ _ => none

/-- C7 witness: one `add_origin(2, snap@factor=0.4)` call on `c7Base`, queried at
base id 2. -/
theorem overlay_base_queries_delegate_witness :
    (applyCmds c7Locate c7Base [.origin 2 ⟨⟨0, 0⟩, 0, 2 / 5⟩]).neighborsF 2 =
        c7Base.nbrsF 2 ∧
      (applyCmds c7Locate c7Base [.origin 2 ⟨⟨0, 0⟩, 0, 2 / 5⟩]).neighborsB 2 =
        c7Base.nbrsB 2 ∧
      (applyCmds c7Locate c7Base [.origin 2 ⟨⟨0, 0⟩, 0, 2 / 5⟩]).geometry 2 =
        c7Base.geom 2 ∧
      (applyCmds c7Locate c7Base [.origin 2 ⟨⟨0, 0⟩, 0, 2 / 5⟩]).base_graph = c7Base :=
  overlay_base_queries_delegate c7Locate c7Base [.origin 2 ⟨⟨0, 0⟩, 0, 2 / 5⟩] 2
    (by decide)

/-- C8 confirmed: `add_origin(b, s)` on any overlay reachable from `new` returns a
fresh id `X` whose forward neighbors are the base graph's forward neighbors of `b`,
whose backward neighbors are empty, whose geometry begins with `s.snapped`, and whose
stored snapped position is `s` with `factor` replaced by `1 - s.factor`. -/
theorem add_origin_spec (locate : Position → Position → Position → Option ℚ)
    (base : BaseGraph) (cs : List OverlayCmd) (b : Nat) (sp : SnappedPosition) :
    ∃ X,
      (add_origin locate (applyCmds locate base cs) b sp).2 = some X ∧
      (add_origin locate (applyCmds locate base cs) b sp).1.neighborsF X =
        base.nbrsF b ∧
      (add_origin locate (applyCmds locate base cs) b sp).1.neighborsB X = [] ∧
      ((add_origin locate (applyCmds locate base cs) b sp).1.geometry X).head? =
        some sp.snapped ∧
      ∃ node,
        (add_origin locate (applyCmds locate base cs) b sp).1.overlay_nodes X =
          some node ∧
        node.base_id = b ∧
        node.snapped_position =
          { snapped := sp.snapped, factor := 1 - sp.factor, distance := sp.distance } := by
  obtain ⟨hb, hm, hlt, hnone⟩ := overlayInv_applyCmds locate base cs
  set g := applyCmds locate base cs with hgdef
  refine ⟨g.extended_ids.next, rfl, ?_⟩
  have hfresh : g.overlay_nodes g.extended_ids.next = none := hnone _ le_rfl
  have hcontains :
      (add_origin locate g b sp).1.extended_ids.contains g.extended_ids.next = true := by
    simp only [add_origin, MoreNodes.newNodeId, MoreNodes.contains]
    simp only [decide_eq_true_eq]
    omega
  have hnode :
      (add_origin locate g b sp).1.overlay_nodes g.extended_ids.next =
        some ⟨b, g.base_graph.nbrsF b, [],
          cut_geometry_before locate (g.base_graph.geom b) sp.snapped,
          { snapped := sp.snapped, factor := 1 - sp.factor,
            distance := sp.distance }⟩ := by
    simp only [add_origin, MoreNodes.newNodeId, if_true]
    rw [hfresh]
    rfl
  refine ⟨?_, ?_, ?_, ?_⟩
  · rw [OverlayGraph.neighborsF, if_pos hcontains, hnode, hb]
  · rw [OverlayGraph.neighborsB, if_pos hcontains, hnode]
  · rw [OverlayGraph.geometry, if_pos hcontains, hnode]
    rfl
  · exact ⟨_, hnode, rfl, rfl⟩

/-- A small concrete compact spatial graph: node 0 carries the forward geometry range
`(1, 3)` and node 1 the reverse range `(3, 1)` into a four-point array. -/
def c9Graph : CompactSpatialGraph Unit :=
  ⟨⟨[], [], []⟩, [(1, 3), (3, 1)], [⟨0, 0⟩, ⟨1, 1⟩, ⟨2, 2⟩, ⟨3, 3⟩]⟩

/-- C9 witness: the reverse range `(3, 1)` of `c9Graph`, evaluated concretely. -/
theorem geometry_ref_iteration_witness :
    c9Graph.geometry 1 =
      if 3 ≤ 1 then
        (List.range' 3 (1 - 3)).map (fun k => c9Graph.points.getD k default)
      else
        ((List.range' (1 + 1) (3 - 1)).reverse).map
          (fun k => c9Graph.points.getD k default) :=
  geometry_ref_iteration c9Graph 1 3 1 rfl

/-! ## Claim C2: the label-setting Dijkstra settles each node at most once, at the
minimum path cost

The search is direction-parametric: `update<Dir>` only touches the graph through the
`Dir`-neighbor iterator, embedded here as the function `nbrs`, so one development
covers both directions.  Weights are `Nat` (the claim restricts to non-negative
transition weights). -/

/-- Total transition weight along a node list. -/
def pathCost (w : Nat → Nat → Nat) : List Nat → Nat
  | a :: b :: rest => w a b + pathCost w (b :: rest)
  | _ => 0

/-- `p` is a directed path (in the `nbrs` direction) from some node of `S` to `v`:
non-empty, starting at a node of `S`, ending at `v`, each step following an edge. -/
def IsPath (nbrs : Nat → List Nat) (S : List Nat) (p : List Nat) (v : Nat) : Prop :=
  (∃ s ∈ S, p.head? = some s) ∧ p.getLast? = some v ∧
    p.Chain' (fun a b => b ∈ nbrs a)

/-- The set of total weights of paths from `S` to `v`. -/
def pathCosts (nbrs : Nat → List Nat) (w : Nat → Nat → Nat) (S : List Nat)
    (v : Nat) : Set Nat :=
  {c | ∃ p, IsPath nbrs S p v ∧ pathCost w p = c}

/-- `k`-fold iteration of `update` (discarding the returned progress flags, as the
`route` driver does). -/
def iterUpdate (nbrs : Nat → List Nat) (w : Nat → Nat → Nat) (s : SearchSpace) :
    Nat → Option SearchSpace
  | 0 => some s
  | k + 1 => (iterUpdate nbrs w s k).bind (fun t => (update nbrs w t).map Prod.fst)

/-- A search initialized with `init` at every node of `S`, then run for `k` calls of
`update`. -/
def runDijkstra (nbrs : Nat → List Nat) (w : Nat → Nat → Nat) (S : List Nat)
    (k : Nat) : Option SearchSpace :=
  (initAll S).bind (fun s => iterUpdate nbrs w s k)

/-- Reachability derivations: `Reach nbrs w S v c` iff some path from `S` reaches `v`
with total weight `c` (proved equivalent to `pathCosts` membership below). -/
inductive Reach (nbrs : Nat → List Nat) (w : Nat → Nat → Nat) (S : List Nat) :
    Nat → Nat → Prop where
  | source {v : Nat} : v ∈ S → Reach nbrs w S v 0
  | step {u v c : Nat} : Reach nbrs w S u c → v ∈ nbrs u →
      Reach nbrs w S v (c + w u v)

theorem pathCost_concat (w : Nat → Nat → Nat) (p : List Nat) (u v : Nat)
    (h : p.getLast? = some u) : pathCost w (p ++ [v]) = pathCost w p + w u v := by
  induction p generalizing u with
  | nil => simp at h
  | cons a p ih =>
    cases p with
    | nil =>
      have hau : a = u := by
        have : some a = some u := h
        injection this
      subst hau
      show w a v + pathCost w [v] = pathCost w [a] + w a v
      show w a v + 0 = 0 + w a v
      omega
    | cons b p =>
      have hlast : (b :: p).getLast? = some u := by
        rw [← h]
        rfl
      show w a b + pathCost w ((b :: p) ++ [v]) = w a b + pathCost w (b :: p) + w u v
      rw [ih u hlast]
      omega

theorem reach_of_isPath (nbrs : Nat → List Nat) (w : Nat → Nat → Nat) (S : List Nat) :
    ∀ p v, IsPath nbrs S p v → Reach nbrs w S v (pathCost w p) := by
  intro p
  induction p using List.reverseRecOn with
  | nil =>
    intro v h
    obtain ⟨⟨s, _, hs⟩, -, -⟩ := h
    simp at hs
  | append_singleton q a ih =>
    intro v h
    obtain ⟨⟨s, hsS, hs⟩, hlast, hchain⟩ := h
    rw [List.getLast?_concat] at hlast
    have hav : a = v := by injection hlast
    rw [← hav]
    by_cases hqnil : q = []
    · subst hqnil
      have has : a = s := by
        have : some a = some s := hs
        injection this
      subst has
      show Reach nbrs w S a 0
      exact Reach.source hsS
    · obtain ⟨u, hu⟩ : ∃ u, q.getLast? = some u := by
        cases hql : q.getLast? with
        | none => exact absurd (List.getLast?_eq_none_iff.mp hql) hqnil
        | some u => exact ⟨u, rfl⟩
      have hchain' := List.chain'_append.mp hchain
      have hedge : a ∈ nbrs u := by
        refine hchain'.2.2 u ?_ a ?_
        · rw [hu]
          rfl
        · rfl
      have hqhead : q.head? = some s := by
        rw [List.head?_append] at hs
        obtain ⟨hd, hhd⟩ : ∃ hd, q.head? = some hd := by
          cases hqh : q.head? with
          | none => exact absurd (List.head?_eq_none_iff.mp hqh) hqnil
          | some hd => exact ⟨hd, rfl⟩
        rw [hhd] at hs ⊢
        exact hs
      have hqpath : IsPath nbrs S q u := ⟨⟨s, hsS, hqhead⟩, hu, hchain'.1⟩
      have := ih u hqpath
      rw [pathCost_concat w q u a hu]
      exact Reach.step this hedge

theorem isPath_of_reach (nbrs : Nat → List Nat) (w : Nat → Nat → Nat) (S : List Nat)
    (v c : Nat) (h : Reach nbrs w S v c) :
    ∃ p, IsPath nbrs S p v ∧ pathCost w p = c := by
  induction h with
  | source hv =>
    refine ⟨[_], ⟨⟨_, hv, rfl⟩, rfl, List.chain'_singleton _⟩, rfl⟩
  | @step u' v' c' hu hedge ih =>
    obtain ⟨p, ⟨⟨s, hsS, hs⟩, hlast, hchain⟩, hcost⟩ := ih
    refine ⟨p ++ [v'], ⟨⟨s, hsS, ?_⟩, List.getLast?_concat _, ?_⟩, ?_⟩
    · rw [List.head?_append, hs]
      rfl
    · rw [List.chain'_append]
      refine ⟨hchain, List.chain'_singleton _, ?_⟩
      intro x hx y hy
      rw [hlast] at hx
      have hx' : u' = x := by simpa using hx
      have hy' : v' = y := by simpa using hy
      rw [← hx', ← hy']
      exact hedge
    · rw [pathCost_concat w p _ _ hlast, hcost]

theorem pathCosts_eq_reach (nbrs : Nat → List Nat) (w : Nat → Nat → Nat)
    (S : List Nat) (v : Nat) :
    pathCosts nbrs w S v = {c | Reach nbrs w S v c} := by
  ext c
  constructor
  · rintro ⟨p, hp, rfl⟩
    exact reach_of_isPath nbrs w S p v hp
  · intro h
    exact isPath_of_reach nbrs w S v c h

/-- The state invariant of the label-setting search.  `l.1` is a label's cost,
`l.2.1` its parent, `l.2.2` its settled flag. -/
structure DijkInv (nbrs : Nat → List Nat) (w : Nat → Nat → Nat) (S : List Nat)
    (s : SearchSpace) : Prop where
  pqLabel : ∀ e ∈ s.pq, ∃ l, s.labels e.2 = some l ∧ l.1 ≤ e.1
  labelReach : ∀ v l, s.labels v = some l → Reach nbrs w S v l.1
  settledOpt : ∀ v l, s.labels v = some l → l.2.2 = true →
      ∀ c, Reach nbrs w S v c → l.1 ≤ c
  settledRelax : ∀ u lu, s.labels u = some lu → lu.2.2 = true → ∀ v ∈ nbrs u,
      ∃ lv, s.labels v = some lv ∧ lv.1 ≤ lu.1 + w u v
  unsettledPq : ∀ v l, s.labels v = some l → l.2.2 = false → (l.1, v) ∈ s.pq
  pqSorted : s.pq.Pairwise (fun a b => a.1 ≤ b.1)
  sourceZero : ∀ v ∈ S, ∃ l, s.labels v = some l ∧ l.1 = 0

theorem mem_pqPush (e f : Entry) (pq : List Entry) :
    f ∈ pqPush e pq ↔ f = e ∨ f ∈ pq := by
  induction pq with
  | nil => simp [pqPush]
  | cons g pq ih =>
    rw [pqPush]
    by_cases h : e.1 < g.1
    · rw [if_pos h]
      simp only [List.mem_cons]
    · rw [if_neg h]
      simp only [List.mem_cons, ih]
      tauto

theorem pqPush_sorted (e : Entry) (pq : List Entry)
    (h : pq.Pairwise (fun a b => a.1 ≤ b.1)) :
    (pqPush e pq).Pairwise (fun a b => a.1 ≤ b.1) := by
  induction pq with
  | nil => simp [pqPush]
  | cons g pq ih =>
    obtain ⟨hg, hpq⟩ := List.pairwise_cons.mp h
    rw [pqPush]
    by_cases hlt : e.1 < g.1
    · rw [if_pos hlt]
      refine List.pairwise_cons.mpr ⟨?_, h⟩
      intro f hf
      rcases List.mem_cons.mp hf with rfl | hf'
      · omega
      · have := hg f hf'
        omega
    · rw [if_neg hlt]
      refine List.pairwise_cons.mpr ⟨?_, ih hpq⟩
      intro f hf
      rcases (mem_pqPush e f pq).mp hf with rfl | hf'
      · omega
      · exact hg f hf'

/-- Case analysis of a successful `relax`: either nothing happened (the label was at
least as good) or the label was (re)written and a queue entry pushed. -/
theorem relax_cases (s : SearchSpace) (node parent cost : Nat) (s' : SearchSpace)
    (h : relax s node parent cost = some s') :
    (s' = s ∧ ∃ l, s.labels node = some l ∧ l.1 ≤ cost) ∨
    (s'.pq = pqPush (cost, node) s.pq ∧
      s'.labels = setLabel s.labels node (cost, parent, false) ∧
      (s.labels node = none ∨
        ∃ l, s.labels node = some l ∧ cost < l.1 ∧ l.2.2 = false)) := by
  rw [relax] at h
  cases hL : s.labels node with
  | none =>
    rw [hL] at h
    dsimp only at h
    right
    refine ⟨?_, ?_, Or.inl rfl⟩
    · rw [← Option.some_inj.mp h]
    · rw [← Option.some_inj.mp h]
  | some l =>
    obtain ⟨c, p, b⟩ := l
    rw [hL] at h
    dsimp only at h
    by_cases hc : cost < c
    · rw [if_pos hc] at h
      cases b with
      | true => simp at h
      | false =>
        right
        refine ⟨?_, ?_, Or.inr ⟨(c, p, false), rfl, hc, rfl⟩⟩
        · rw [← Option.some_inj.mp h]
        · rw [← Option.some_inj.mp h]
    · rw [if_neg hc] at h
      left
      exact ⟨(Option.some_inj.mp h).symm, (c, p, b), rfl, by omega⟩

/-- `relax` succeeds whenever it would not improve a settled label. -/
theorem relax_some (s : SearchSpace) (node parent cost : Nat)
    (h : ∀ l, s.labels node = some l → l.2.2 = true → l.1 ≤ cost) :
    ∃ s', relax s node parent cost = some s' := by
  rw [relax]
  cases hL : s.labels node with
  | none => exact ⟨_, rfl⟩
  | some l =>
    obtain ⟨c, p, b⟩ := l
    dsimp only
    by_cases hc : cost < c
    · rw [if_pos hc]
      cases b with
      | true =>
        have := h (c, p, true) hL rfl
        omega
      | false => exact ⟨_, rfl⟩
    · rw [if_neg hc]
      exact ⟨_, rfl⟩

/-- Labels never disappear, never increase in cost, and settled labels are frozen,
across one `relax`. -/
theorem relax_label_le (s : SearchSpace) (node parent cost : Nat) (s' : SearchSpace)
    (h : relax s node parent cost = some s') (v : Nat) (l : Nat × Nat × Bool)
    (hv : s.labels v = some l) :
    ∃ l', s'.labels v = some l' ∧ l'.1 ≤ l.1 ∧ (l.2.2 = true → l' = l) := by
  rcases relax_cases s node parent cost s' h with ⟨rfl, -⟩ | ⟨-, hlab, hold⟩
  · exact ⟨l, hv, le_refl _, fun _ => rfl⟩
  · by_cases hvn : v = node
    · subst hvn
      rcases hold with hnone | ⟨l0, hl0, hlt, hset⟩
      · rw [hnone] at hv
        exact absurd hv (by simp)
      · rw [hl0] at hv
        obtain rfl : l0 = l := Option.some_inj.mp hv
        refine ⟨(cost, parent, false), ?_, by omega, ?_⟩
        · rw [hlab, setLabel, if_pos rfl]
        · intro hset'
          rw [hset'] at hset
          exact absurd hset (by simp)
    · refine ⟨l, ?_, le_refl _, fun _ => rfl⟩
      rw [hlab, setLabel, if_neg hvn]
      exact hv

/-- New labels written by `relax` are unsettled; settled labels in the result were
already present unchanged. -/
theorem relax_settled_back (s : SearchSpace) (node parent cost : Nat)
    (s' : SearchSpace) (h : relax s node parent cost = some s') (v : Nat)
    (l' : Nat × Nat × Bool) (hv : s'.labels v = some l') (hs : l'.2.2 = true) :
    s.labels v = some l' := by
  rcases relax_cases s node parent cost s' h with ⟨rfl, -⟩ | ⟨-, hlab, -⟩
  · exact hv
  · rw [hlab, setLabel] at hv
    by_cases hvn : v = node
    · rw [if_pos hvn] at hv
      obtain rfl : (cost, parent, false) = l' := Option.some_inj.mp hv
      simp at hs
    · rwa [if_neg hvn] at hv

/-- Queue entries survive a `relax` (push only adds). -/
theorem relax_pq_mem (s : SearchSpace) (node parent cost : Nat) (s' : SearchSpace)
    (h : relax s node parent cost = some s') (e : Entry) (he : e ∈ s.pq) :
    e ∈ s'.pq := by
  rcases relax_cases s node parent cost s' h with ⟨rfl, -⟩ | ⟨hpq, -, -⟩
  · exact he
  · rw [hpq, mem_pqPush]
    exact Or.inr he

theorem foldRelax_cons (w : Nat → Nat → Nat) (id cost t : Nat) (ts : List Nat)
    (s : SearchSpace) :
    (t :: ts).foldlM (fun st t => relax st t id (cost + w id t)) s =
      (relax s t id (cost + w id t)).bind
        (fun s₁ => ts.foldlM (fun st t => relax st t id (cost + w id t)) s₁) :=
  rfl

theorem foldRelax_label_le (w : Nat → Nat → Nat) (id cost : Nat) (ts : List Nat)
    (s s' : SearchSpace)
    (h : ts.foldlM (fun st t => relax st t id (cost + w id t)) s = some s')
    (v : Nat) (l : Nat × Nat × Bool) (hv : s.labels v = some l) :
    ∃ l', s'.labels v = some l' ∧ l'.1 ≤ l.1 ∧ (l.2.2 = true → l' = l) := by
  revert hv
  induction ts generalizing s v l with
  | nil =>
    intro hv
    obtain rfl : s = s' := Option.some_inj.mp h
    exact ⟨l, hv, le_refl _, fun _ => rfl⟩
  | cons t ts ih =>
    intro hv
    rw [foldRelax_cons] at h
    cases hrx : relax s t id (cost + w id t) with
    | none => rw [hrx] at h; exact absurd h (by simp)
    | some s₁ =>
      rw [hrx] at h
      obtain ⟨l₁, hl₁, hle₁, hst₁⟩ := relax_label_le s t id (cost + w id t) s₁ hrx v l hv
      obtain ⟨l', hl', hle', hst'⟩ := ih s₁ h v l₁ hl₁
      refine ⟨l', hl', by omega, ?_⟩
      intro hsettled
      have h1 := hst₁ hsettled
      rw [h1] at hle' hst'
      exact hst' hsettled

theorem foldRelax_settled_back (w : Nat → Nat → Nat) (id cost : Nat) (ts : List Nat)
    (s s' : SearchSpace)
    (h : ts.foldlM (fun st t => relax st t id (cost + w id t)) s = some s')
    (v : Nat) (l' : Nat × Nat × Bool) (hv : s'.labels v = some l')
    (hs : l'.2.2 = true) : s.labels v = some l' := by
  induction ts generalizing s with
  | nil =>
    obtain rfl : s = s' := Option.some_inj.mp h
    exact hv
  | cons t ts ih =>
    rw [foldRelax_cons] at h
    cases hrx : relax s t id (cost + w id t) with
    | none => rw [hrx] at h; exact absurd h (by simp)
    | some s₁ =>
      rw [hrx] at h
      exact relax_settled_back s t id (cost + w id t) s₁ hrx v l' (ih s₁ h) hs

theorem foldRelax_pq_mem (w : Nat → Nat → Nat) (id cost : Nat) (ts : List Nat)
    (s s' : SearchSpace)
    (h : ts.foldlM (fun st t => relax st t id (cost + w id t)) s = some s')
    (e : Entry) (he : e ∈ s.pq) : e ∈ s'.pq := by
  induction ts generalizing s with
  | nil =>
    obtain rfl : s = s' := Option.some_inj.mp h
    exact he
  | cons t ts ih =>
    rw [foldRelax_cons] at h
    cases hrx : relax s t id (cost + w id t) with
    | none => rw [hrx] at h; exact absurd h (by simp)
    | some s₁ =>
      rw [hrx] at h
      exact ih s₁ h (relax_pq_mem s t id (cost + w id t) s₁ hrx e he)

theorem foldRelax_some (w : Nat → Nat → Nat) (id cost : Nat) (ts : List Nat)
    (s : SearchSpace)
    (h : ∀ t ∈ ts, ∀ l, s.labels t = some l → l.2.2 = true → l.1 ≤ cost + w id t) :
    ∃ s', ts.foldlM (fun st t => relax st t id (cost + w id t)) s = some s' := by
  induction ts generalizing s with
  | nil => exact ⟨s, rfl⟩
  | cons t ts ih =>
    obtain ⟨s₁, hs₁⟩ := relax_some s t id (cost + w id t)
      (fun l hl hst => h t (List.mem_cons_self _ _) l hl hst)
    obtain ⟨s', hs'⟩ := ih s₁ (fun t' ht' l hl hst =>
      h t' (List.mem_cons_of_mem _ ht') l
        (relax_settled_back s t id (cost + w id t) s₁ hs₁ t' l hl hst) hst)
    refine ⟨s', ?_⟩
    rw [foldRelax_cons, hs₁]
    exact hs'

theorem foldRelax_pqLabel (w : Nat → Nat → Nat) (id cost : Nat) (ts : List Nat)
    (s s' : SearchSpace)
    (h : ts.foldlM (fun st t => relax st t id (cost + w id t)) s = some s')
    (hinv : ∀ e ∈ s.pq, ∃ l, s.labels e.2 = some l ∧ l.1 ≤ e.1) :
    ∀ e ∈ s'.pq, ∃ l, s'.labels e.2 = some l ∧ l.1 ≤ e.1 := by
  induction ts generalizing s with
  | nil =>
    obtain rfl : s = s' := Option.some_inj.mp h
    exact hinv
  | cons t ts ih =>
    rw [foldRelax_cons] at h
    cases hrx : relax s t id (cost + w id t) with
    | none => rw [hrx] at h; exact absurd h (by simp)
    | some s₁ =>
      rw [hrx] at h
      refine ih s₁ h ?_
      intro e he
      rcases relax_cases s t id (cost + w id t) s₁ hrx with ⟨rfl, -⟩ | ⟨hpq, hlab, hold⟩
      · exact hinv e he
      · rw [hpq, mem_pqPush] at he
        rcases he with rfl | he'
        · refine ⟨(cost + w id t, id, false), ?_, le_refl _⟩
          rw [hlab, setLabel, if_pos rfl]
        · obtain ⟨l, hl, hle⟩ := hinv e he'
          by_cases het : e.2 = t
          · refine ⟨(cost + w id t, id, false), ?_, ?_⟩
            · rw [hlab, setLabel, if_pos het]
            · rcases hold with hnone | ⟨l0, hl0, hlt, -⟩
              · rw [het, hnone] at hl
                exact absurd hl (by simp)
              · rw [het, hl0] at hl
                obtain rfl : l0 = l := Option.some_inj.mp hl
                omega
          · refine ⟨l, ?_, hle⟩
            rw [hlab, setLabel, if_neg het]
            exact hl

theorem foldRelax_unsettledPq (w : Nat → Nat → Nat) (id cost : Nat) (ts : List Nat)
    (s s' : SearchSpace)
    (h : ts.foldlM (fun st t => relax st t id (cost + w id t)) s = some s')
    (hinv : ∀ v l, s.labels v = some l → l.2.2 = false → (l.1, v) ∈ s.pq) :
    ∀ v l, s'.labels v = some l → l.2.2 = false → (l.1, v) ∈ s'.pq := by
  induction ts generalizing s with
  | nil =>
    obtain rfl : s = s' := Option.some_inj.mp h
    exact hinv
  | cons t ts ih =>
    rw [foldRelax_cons] at h
    cases hrx : relax s t id (cost + w id t) with
    | none => rw [hrx] at h; exact absurd h (by simp)
    | some s₁ =>
      rw [hrx] at h
      refine ih s₁ h ?_
      intro v l hl hst
      rcases relax_cases s t id (cost + w id t) s₁ hrx with ⟨rfl, -⟩ | ⟨hpq, hlab, -⟩
      · exact hinv v l hl hst
      · rw [hlab, setLabel] at hl
        by_cases hvt : v = t
        · rw [if_pos hvt] at hl
          obtain rfl : (cost + w id t, id, false) = l := Option.some_inj.mp hl
          rw [hpq, hvt, mem_pqPush]
          exact Or.inl rfl
        · rw [if_neg hvt] at hl
          rw [hpq, mem_pqPush]
          exact Or.inr (hinv v l hl hst)

theorem foldRelax_sorted (w : Nat → Nat → Nat) (id cost : Nat) (ts : List Nat)
    (s s' : SearchSpace)
    (h : ts.foldlM (fun st t => relax st t id (cost + w id t)) s = some s')
    (hinv : s.pq.Pairwise (fun a b => a.1 ≤ b.1)) :
    s'.pq.Pairwise (fun a b => a.1 ≤ b.1) := by
  induction ts generalizing s with
  | nil =>
    obtain rfl : s = s' := Option.some_inj.mp h
    exact hinv
  | cons t ts ih =>
    rw [foldRelax_cons] at h
    cases hrx : relax s t id (cost + w id t) with
    | none => rw [hrx] at h; exact absurd h (by simp)
    | some s₁ =>
      rw [hrx] at h
      refine ih s₁ h ?_
      rcases relax_cases s t id (cost + w id t) s₁ hrx with ⟨rfl, -⟩ | ⟨hpq, -, -⟩
      · exact hinv
      · rw [hpq]
        exact pqPush_sorted _ _ hinv

theorem foldRelax_reach (nbrs : Nat → List Nat) (w : Nat → Nat → Nat) (S : List Nat)
    (id cost : Nat) (ts : List Nat) (s s' : SearchSpace)
    (h : ts.foldlM (fun st t => relax st t id (cost + w id t)) s = some s')
    (hts : ∀ t ∈ ts, t ∈ nbrs id) (hid : Reach nbrs w S id cost)
    (hinv : ∀ v l, s.labels v = some l → Reach nbrs w S v l.1) :
    ∀ v l, s'.labels v = some l → Reach nbrs w S v l.1 := by
  induction ts generalizing s with
  | nil =>
    obtain rfl : s = s' := Option.some_inj.mp h
    exact hinv
  | cons t ts ih =>
    rw [foldRelax_cons] at h
    cases hrx : relax s t id (cost + w id t) with
    | none => rw [hrx] at h; exact absurd h (by simp)
    | some s₁ =>
      rw [hrx] at h
      refine ih s₁ h (fun t' ht' => hts t' (List.mem_cons_of_mem _ ht')) ?_
      intro v l hl
      rcases relax_cases s t id (cost + w id t) s₁ hrx with ⟨rfl, -⟩ | ⟨-, hlab, -⟩
      · exact hinv v l hl
      · rw [hlab, setLabel] at hl
        by_cases hvt : v = t
        · rw [if_pos hvt] at hl
          obtain rfl : (cost + w id t, id, false) = l := Option.some_inj.mp hl
          rw [hvt]
          exact Reach.step hid (hts t (List.mem_cons_self _ _))
        · rw [if_neg hvt] at hl
          exact hinv v l hl

theorem head_min (pq : List Entry) (hsorted : pq.Pairwise (fun a b => a.1 ≤ b.1))
    (c n : Nat) (rest : List Entry) (hpq : pq = (c, n) :: rest) :
    ∀ e ∈ pq, c ≤ e.1 := by
  subst hpq
  intro e he
  rcases List.mem_cons.mp he with rfl | he'
  · exact le_refl _
  · exact (List.pairwise_cons.mp hsorted).1 e he'

/-- The crux of Dijkstra: when the head of the queue carries an unsettled label, that
label's cost equals the head cost and bounds every reachable cost of that node. -/
theorem head_cost_optimal (nbrs : Nat → List Nat) (w : Nat → Nat → Nat)
    (S : List Nat) (s : SearchSpace) (hinv : DijkInv nbrs w S s) (c n : Nat)
    (rest : List Entry) (hpq : s.pq = (c, n) :: rest) (lc lp : Nat)
    (hn : s.labels n = some (lc, lp, false)) :
    lc = c ∧ ∀ d, Reach nbrs w S n d → c ≤ d := by
  have hmin : ∀ e ∈ s.pq, c ≤ e.1 := head_min s.pq hinv.pqSorted c n rest hpq
  have h1 : ((lc, lp, false).1, n) ∈ s.pq := hinv.unsettledPq n (lc, lp, false) hn rfl
  have hc1 : c ≤ lc := hmin (lc, n) h1
  have hc2 : lc ≤ c := by
    obtain ⟨l, hl, hle⟩ := hinv.pqLabel (c, n) (by rw [hpq]; exact List.mem_cons_self _ _)
    rw [hn] at hl
    obtain rfl : l = (lc, lp, false) := (Option.some_inj.mp hl).symm
    exact hle
  refine ⟨by omega, ?_⟩
  have main : ∀ v d, Reach nbrs w S v d →
      c ≤ d ∨ ∃ lv, s.labels v = some lv ∧ lv.2.2 = true ∧ lv.1 ≤ d := by
    intro v d hreach
    induction hreach with
    | @source v' hv' =>
      obtain ⟨l, hl, hl0⟩ := hinv.sourceZero v' hv'
      by_cases hset : l.2.2 = true
      · exact Or.inr ⟨l, hl, hset, by omega⟩
      · have hfalse : l.2.2 = false := by
          revert hset
          cases l.2.2 <;> simp
        have hmem := hinv.unsettledPq v' l hl hfalse
        have := hmin (l.1, v') hmem
        left
        omega
    | @step u' v' c' hu hedge ih =>
      rcases ih with hcd | ⟨lu, hlu, hset, hle⟩
      · left
        omega
      · obtain ⟨lv, hlv, hlvle⟩ := hinv.settledRelax u' lu hlu hset v' hedge
        by_cases hsetv : lv.2.2 = true
        · exact Or.inr ⟨lv, hlv, hsetv, by omega⟩
        · have hfalse : lv.2.2 = false := by
            revert hsetv
            cases lv.2.2 <;> simp
          have hmem := hinv.unsettledPq v' lv hlv hfalse
          have := hmin (lv.1, v') hmem
          left
          omega
  intro d hreach
  rcases main n d hreach with h | ⟨lv, hlv, hset, -⟩
  · exact h
  · rw [hn] at hlv
    obtain rfl : (lc, lp, false) = lv := Option.some_inj.mp hlv
    simp at hset

/-- The invariant holds for the queue tail when the popped head is stale. -/
theorem DijkInv_tail (nbrs : Nat → List Nat) (w : Nat → Nat → Nat) (S : List Nat)
    (c n : Nat) (rest : List Entry) (L : Labels)
    (hinv : DijkInv nbrs w S ⟨(c, n) :: rest, L⟩)
    (hstale : L n = none ∨ ∃ l, L n = some l ∧ l.2.2 = true) :
    DijkInv nbrs w S ⟨rest, L⟩ := by
  refine ⟨?_, hinv.labelReach, hinv.settledOpt, hinv.settledRelax, ?_, ?_,
    hinv.sourceZero⟩
  · intro e he
    exact hinv.pqLabel e (List.mem_cons_of_mem _ he)
  · intro v l hl hfalse
    dsimp only at hl
    have hmem := hinv.unsettledPq v l hl hfalse
    rcases List.mem_cons.mp hmem with heq | hrest
    · exfalso
      have hvn : v = n := congrArg Prod.snd heq
      rcases hstale with hnone | ⟨l', hl', hset'⟩
      · rw [hvn, hnone] at hl
        exact absurd hl (by simp)
      · rw [hvn, hl'] at hl
        obtain rfl : l' = l := Option.some_inj.mp hl
        rw [hset'] at hfalse
        exact absurd hfalse (by simp)
    · exact hrest
  · exact (List.pairwise_cons.mp hinv.pqSorted).2

theorem foldRelax_bound (w : Nat → Nat → Nat) (id cost : Nat) (ts : List Nat)
    (s s' : SearchSpace)
    (h : ts.foldlM (fun st t => relax st t id (cost + w id t)) s = some s') :
    ∀ t ∈ ts, ∃ lt, s'.labels t = some lt ∧ lt.1 ≤ cost + w id t := by
  induction ts generalizing s with
  | nil =>
    intro t ht
    exact absurd ht (by simp)
  | cons t' ts ih =>
    rw [foldRelax_cons] at h
    cases hrx : relax s t' id (cost + w id t') with
    | none => rw [hrx] at h; exact absurd h (by simp)
    | some s₁ =>
      rw [hrx] at h
      intro t ht
      rcases List.mem_cons.mp ht with rfl | ht'
      · have h₁ : ∃ l₁, s₁.labels t = some l₁ ∧ l₁.1 ≤ cost + w id t := by
          rcases relax_cases s t id (cost + w id t) s₁ hrx with
            ⟨rfl, l, hl, hle⟩ | ⟨-, hlab, -⟩
          · exact ⟨l, hl, hle⟩
          · refine ⟨(cost + w id t, id, false), ?_, le_refl _⟩
            rw [hlab, setLabel, if_pos rfl]
        obtain ⟨l₁, hl₁, hle₁⟩ := h₁
        obtain ⟨l', hl', hle', -⟩ := foldRelax_label_le w id cost ts s₁ s' h t l₁ hl₁
        exact ⟨l', hl', by omega⟩
      · exact ih s₁ h t ht'

/-- One `update` call preserves the invariant, never panics, and never mutates a
settled label. -/
theorem updateGo_inv (nbrs : Nat → List Nat) (w : Nat → Nat → Nat) (S : List Nat) :
    ∀ (pq : List Entry) (L : Labels), DijkInv nbrs w S ⟨pq, L⟩ →
      ∃ s' b, updateGo nbrs w pq L = some (s', b) ∧ DijkInv nbrs w S s' ∧
        (∀ v l, L v = some l → l.2.2 = true → s'.labels v = some l) := by
  intro pq
  induction pq with
  | nil =>
    intro L hinv
    exact ⟨⟨[], L⟩, false, rfl, hinv, fun v l hl _ => hl⟩
  | cons e rest ih =>
    obtain ⟨c, n⟩ := e
    intro L hinv
    cases hL : L n with
    | none =>
      have htail := DijkInv_tail nbrs w S c n rest L hinv (Or.inl hL)
      obtain ⟨s', bb, hgo, hinv', hpres⟩ := ih L htail
      refine ⟨s', bb, ?_, hinv', hpres⟩
      rw [updateGo, hL]
      exact hgo
    | some l =>
      obtain ⟨lc, lp, b⟩ := l
      cases b with
      | true =>
        have htail := DijkInv_tail nbrs w S c n rest L hinv
          (Or.inr ⟨(lc, lp, true), hL, rfl⟩)
        obtain ⟨s', bb, hgo, hinv', hpres⟩ := ih L htail
        refine ⟨s', bb, ?_, hinv', hpres⟩
        rw [updateGo, hL]
        exact hgo
      | false =>
        obtain ⟨hlc, hopt⟩ := head_cost_optimal nbrs w S ⟨(c, n) :: rest, L⟩ hinv
          c n rest rfl lc lp hL
        have hReach_n : Reach nbrs w S n c := by
          have := hinv.labelReach n (lc, lp, false) hL
          rwa [hlc] at this
        set L₁ : Labels := setLabel L n (lc, lp, true) with hL₁
        have hs₁other : ∀ v, v ≠ n → L₁ v = L v := fun v hv => by
          rw [hL₁, setLabel, if_neg hv]
        have hs₁n : L₁ n = some (lc, lp, true) := by
          rw [hL₁, setLabel, if_pos rfl]
        have hI1 : ∀ e ∈ rest, ∃ l, L₁ e.2 = some l ∧ l.1 ≤ e.1 := by
          intro e he
          obtain ⟨l0, hl0, hle0⟩ := hinv.pqLabel e (List.mem_cons_of_mem _ he)
          have hl0 : L e.2 = some l0 := hl0
          by_cases hen : e.2 = n
          · rw [hen, hL] at hl0
            obtain rfl : (lc, lp, false) = l0 := Option.some_inj.mp hl0
            refine ⟨(lc, lp, true), ?_, hle0⟩
            rw [hen, hs₁n]
          · refine ⟨l0, ?_, hle0⟩
            rw [hs₁other e.2 hen]
            exact hl0
        have hI2 : ∀ v l, L₁ v = some l → Reach nbrs w S v l.1 := by
          intro v l hl
          by_cases hvn : v = n
          · rw [hvn, hs₁n] at hl
            obtain rfl : (lc, lp, true) = l := Option.some_inj.mp hl
            rw [hvn]
            exact hinv.labelReach n (lc, lp, false) hL
          · rw [hs₁other v hvn] at hl
            exact hinv.labelReach v l hl
        have hI3 : ∀ v l, L₁ v = some l → l.2.2 = true →
            ∀ d, Reach nbrs w S v d → l.1 ≤ d := by
          intro v l hl hset d hd
          by_cases hvn : v = n
          · rw [hvn, hs₁n] at hl
            obtain rfl : (lc, lp, true) = l := Option.some_inj.mp hl
            rw [hvn] at hd
            have := hopt d hd
            show lc ≤ d
            omega
          · rw [hs₁other v hvn] at hl
            exact hinv.settledOpt v l hl hset d hd
        have hI4 : ∀ u, u ≠ n → ∀ lu, L₁ u = some lu → lu.2.2 = true →
            ∀ v ∈ nbrs u, ∃ lv, L₁ v = some lv ∧ lv.1 ≤ lu.1 + w u v := by
          intro u hun lu hlu hset v hv
          rw [hs₁other u hun] at hlu
          obtain ⟨lv, hlv, hle⟩ := hinv.settledRelax u lu hlu hset v hv
          have hlv : L v = some lv := hlv
          by_cases hvn : v = n
          · rw [hvn, hL] at hlv
            obtain rfl : (lc, lp, false) = lv := Option.some_inj.mp hlv
            refine ⟨(lc, lp, true), ?_, hle⟩
            rw [hvn, hs₁n]
          · refine ⟨lv, ?_, hle⟩
            rw [hs₁other v hvn]
            exact hlv
        have hI5 : ∀ v l, L₁ v = some l → l.2.2 = false → (l.1, v) ∈ rest := by
          intro v l hl hfalse
          by_cases hvn : v = n
          · rw [hvn, hs₁n] at hl
            obtain rfl : (lc, lp, true) = l := Option.some_inj.mp hl
            simp at hfalse
          · rw [hs₁other v hvn] at hl
            have hmem := hinv.unsettledPq v l hl hfalse
            rcases List.mem_cons.mp hmem with heq | hrest
            · exact absurd (congrArg Prod.snd heq) hvn
            · exact hrest
        have hI7 : ∀ v ∈ S, ∃ l, L₁ v = some l ∧ l.1 = 0 := by
          intro v hv
          obtain ⟨l0, hl0, h00⟩ := hinv.sourceZero v hv
          have hl0 : L v = some l0 := hl0
          by_cases hvn : v = n
          · rw [hvn, hL] at hl0
            obtain rfl : (lc, lp, false) = l0 := Option.some_inj.mp hl0
            refine ⟨(lc, lp, true), ?_, h00⟩
            rw [hvn, hs₁n]
          · refine ⟨l0, ?_, h00⟩
            rw [hs₁other v hvn]
            exact hl0
        have hcond : ∀ t ∈ nbrs n, ∀ l,
            (⟨rest, L₁⟩ : SearchSpace).labels t = some l → l.2.2 = true →
              l.1 ≤ c + w n t := by
          intro t ht l hl hset
          have hl : L₁ t = some l := hl
          by_cases htn : t = n
          · rw [htn, hs₁n] at hl
            obtain rfl : (lc, lp, true) = l := Option.some_inj.mp hl
            show lc ≤ c + w n t
            omega
          · rw [hs₁other t htn] at hl
            have hR : Reach nbrs w S t (c + w n t) := Reach.step hReach_n ht
            exact hinv.settledOpt t l hl hset (c + w n t) hR
        obtain ⟨s₂, hs₂⟩ := foldRelax_some w n c (nbrs n) ⟨rest, L₁⟩ hcond
        have hsorted₁ : rest.Pairwise (fun a b => a.1 ≤ b.1) :=
          (List.pairwise_cons.mp hinv.pqSorted).2
        have hinv₂ : DijkInv nbrs w S s₂ := by
          refine ⟨foldRelax_pqLabel w n c (nbrs n) ⟨rest, L₁⟩ s₂ hs₂ hI1,
            foldRelax_reach nbrs w S n c (nbrs n) ⟨rest, L₁⟩ s₂ hs₂
              (fun t ht => ht) hReach_n hI2,
            ?_, ?_,
            foldRelax_unsettledPq w n c (nbrs n) ⟨rest, L₁⟩ s₂ hs₂ hI5,
            foldRelax_sorted w n c (nbrs n) ⟨rest, L₁⟩ s₂ hs₂ hsorted₁, ?_⟩
          · intro v l hl hset
            exact hI3 v l
              (foldRelax_settled_back w n c (nbrs n) ⟨rest, L₁⟩ s₂ hs₂ v l hl hset)
              hset
          · intro u lu hlu hset v hv
            have hback := foldRelax_settled_back w n c (nbrs n) ⟨rest, L₁⟩ s₂ hs₂
              u lu hlu hset
            have hback : L₁ u = some lu := hback
            by_cases hun : u = n
            · rw [hun, hs₁n] at hback
              obtain rfl : (lc, lp, true) = lu := Option.some_inj.mp hback
              obtain ⟨lv, hlv, hle⟩ := foldRelax_bound w n c (nbrs n) ⟨rest, L₁⟩
                s₂ hs₂ v (by rwa [hun] at hv)
              refine ⟨lv, hlv, ?_⟩
              rw [hun]
              show lv.1 ≤ lc + w n v
              omega
            · obtain ⟨lv, hlv, hle⟩ := hI4 u hun lu hback hset v hv
              obtain ⟨lv', hlv', hle', -⟩ := foldRelax_label_le w n c (nbrs n)
                ⟨rest, L₁⟩ s₂ hs₂ v lv hlv
              exact ⟨lv', hlv', by omega⟩
          · intro v hv
            obtain ⟨l0, hl0, h00⟩ := hI7 v hv
            obtain ⟨l', hl', hle', -⟩ := foldRelax_label_le w n c (nbrs n)
              ⟨rest, L₁⟩ s₂ hs₂ v l0 hl0
            exact ⟨l', hl', by omega⟩
        have hpres : ∀ v l, L v = some l → l.2.2 = true → s₂.labels v = some l := by
          intro v l hl hset
          by_cases hvn : v = n
          · rw [hvn, hL] at hl
            obtain rfl : (lc, lp, false) = l := Option.some_inj.mp hl
            simp at hset
          · have hl₁ : L₁ v = some l := by
              rw [hs₁other v hvn]
              exact hl
            obtain ⟨l', hl', -, hfix⟩ := foldRelax_label_le w n c (nbrs n)
              ⟨rest, L₁⟩ s₂ hs₂ v l hl₁
            rw [← hfix hset]
            exact hl'
        refine ⟨s₂, true, ?_, hinv₂, hpres⟩
        rw [updateGo, hL]
        have hrx : relaxNbrs nbrs w ⟨rest, L₁⟩ n c = some s₂ := hs₂
        show (relaxNbrs nbrs w ⟨rest, setLabel L n (lc, lp, true)⟩ n c).map
          (fun s => (s, true)) = some (s₂, true)
        rw [← hL₁, hrx]
        rfl

/-- `update` on an invariant-satisfying state: succeeds, preserves the invariant,
and never mutates a settled label. -/
theorem update_inv (nbrs : Nat → List Nat) (w : Nat → Nat → Nat) (S : List Nat)
    (s : SearchSpace) (hinv : DijkInv nbrs w S s) :
    ∃ s' b, update nbrs w s = some (s', b) ∧ DijkInv nbrs w S s' ∧
      (∀ v l, s.labels v = some l → l.2.2 = true → s'.labels v = some l) :=
  updateGo_inv nbrs w S s.pq s.labels hinv

theorem initAll_cons (s : SearchSpace) (r : Nat) (R : List Nat) :
    (r :: R).foldlM init s = (init s r).bind (fun t => R.foldlM init t) := by
  rw [List.foldlM_cons]
  cases init s r with
  | none => rfl
  | some t => rfl

theorem pairwise_of_all_zero : ∀ (pq : List Entry), (∀ e ∈ pq, e.1 = 0) →
    pq.Pairwise (fun a b => a.1 ≤ b.1) := by
  intro pq
  induction pq with
  | nil => intro _; exact List.Pairwise.nil
  | cons e pq ih =>
    intro h
    refine List.Pairwise.cons ?_ (ih fun f hf => h f (List.mem_cons_of_mem _ hf))
    intro f hf
    have h1 := h e (List.mem_cons_self e pq)
    have h2 := h f (List.mem_cons_of_mem _ hf)
    omega

/-- Invariant of the `for id in ids { search.init(id) }` fold: every label is
`(0, v, false)` for a node `v` of `S`, every queue entry has cost `0` and a label,
every labeled node has its `(0, v)` entry queued, labels persist, and every
processed node ends up labeled. -/
theorem initFold_inv (S : List Nat) :
    ∀ (R : List Nat) (s : SearchSpace),
      (∀ v l, s.labels v = some l → l = (0, v, false) ∧ v ∈ S) →
      (∀ e ∈ s.pq, e.1 = 0) →
      (∀ v l, s.labels v = some l → (0, v) ∈ s.pq) →
      (∀ e ∈ s.pq, ∃ l, s.labels e.2 = some l) →
      (∀ v ∈ R, v ∈ S) →
      ∃ s', R.foldlM init s = some s' ∧
        (∀ v l, s'.labels v = some l → l = (0, v, false) ∧ v ∈ S) ∧
        (∀ e ∈ s'.pq, e.1 = 0) ∧
        (∀ v l, s'.labels v = some l → (0, v) ∈ s'.pq) ∧
        (∀ e ∈ s'.pq, ∃ l, s'.labels e.2 = some l) ∧
        (∀ v l, s.labels v = some l → s'.labels v = some l) ∧
        (∀ v ∈ R, ∃ l, s'.labels v = some l) := by
  intro R
  induction R with
  | nil =>
    intro s h1 h2 h3 h4 _
    exact ⟨s, rfl, h1, h2, h3, h4, fun v l hl => hl,
      fun v hv => absurd hv (List.not_mem_nil v)⟩
  | cons r R ih =>
    intro s hA hB hC hD hR
    have hrS : r ∈ S := hR r (List.mem_cons_self r R)
    cases hLr : s.labels r with
    | some l =>
      have hstep : init s r = some s := by
        obtain ⟨rfl, -⟩ := hA r l hLr
        rw [init, relax, hLr]
        dsimp only
        rw [if_neg (by omega : ¬ (0 : Nat) < 0)]
      obtain ⟨s', hfold, hA', hB', hC', hD', hE', hF'⟩ :=
        ih s hA hB hC hD (fun v hv => hR v (List.mem_cons_of_mem _ hv))
      refine ⟨s', ?_, hA', hB', hC', hD', hE', ?_⟩
      · rw [initAll_cons, hstep]
        exact hfold
      · intro v hv
        rcases List.mem_cons.mp hv with rfl | hv'
        · exact ⟨l, hE' v l hLr⟩
        · exact hF' v hv'
    | none =>
      have hstep : init s r =
          some ⟨pqPush (0, r) s.pq, setLabel s.labels r (0, r, false)⟩ := by
        rw [init, relax, hLr]
      have hl₁r : setLabel s.labels r (0, r, false) r = some (0, r, false) := by
        rw [setLabel, if_pos rfl]
      have hl₁other : ∀ v, v ≠ r →
          setLabel s.labels r (0, r, false) v = s.labels v := fun v hv => by
        rw [setLabel, if_neg hv]
      have hA₁ : ∀ v l, setLabel s.labels r (0, r, false) v = some l →
          l = (0, v, false) ∧ v ∈ S := by
        intro v l hl
        by_cases hvr : v = r
        · rw [hvr, hl₁r] at hl
          obtain rfl : (0, r, false) = l := Option.some_inj.mp hl
          constructor
          · rw [hvr]
          · rw [hvr]; exact hrS
        · rw [hl₁other v hvr] at hl
          exact hA v l hl
      have hB₁ : ∀ e ∈ pqPush (0, r) s.pq, e.1 = 0 := by
        intro e he
        rcases (mem_pqPush _ _ _).mp he with rfl | he'
        · rfl
        · exact hB e he'
      have hC₁ : ∀ v l, setLabel s.labels r (0, r, false) v = some l →
          (0, v) ∈ pqPush (0, r) s.pq := by
        intro v l hl
        by_cases hvr : v = r
        · exact (mem_pqPush _ _ _).mpr (Or.inl (by rw [hvr]))
        · rw [hl₁other v hvr] at hl
          exact (mem_pqPush _ _ _).mpr (Or.inr (hC v l hl))
      have hD₁ : ∀ e ∈ pqPush (0, r) s.pq, ∃ l,
          setLabel s.labels r (0, r, false) e.2 = some l := by
        intro e he
        rcases (mem_pqPush _ _ _).mp he with rfl | he'
        · exact ⟨(0, r, false), hl₁r⟩
        · obtain ⟨l, hl⟩ := hD e he'
          by_cases her : e.2 = r
          · exact ⟨(0, r, false), by rw [her, hl₁r]⟩
          · exact ⟨l, by rw [hl₁other e.2 her]; exact hl⟩
      obtain ⟨s', hfold, hA', hB', hC', hD', hE', hF'⟩ :=
        ih ⟨pqPush (0, r) s.pq, setLabel s.labels r (0, r, false)⟩ hA₁ hB₁ hC₁ hD₁
          (fun v hv => hR v (List.mem_cons_of_mem _ hv))
      refine ⟨s', ?_, hA', hB', hC', hD', ?_, ?_⟩
      · rw [initAll_cons, hstep]
        exact hfold
      · intro v l hl
        have hvr : v ≠ r := by
          intro h
          rw [h, hLr] at hl
          exact Option.noConfusion hl
        refine hE' v l ?_
        show setLabel s.labels r (0, r, false) v = some l
        rw [hl₁other v hvr]
        exact hl
      · intro v hv
        rcases List.mem_cons.mp hv with rfl | hv'
        · exact ⟨(0, v, false), hE' v (0, v, false) hl₁r⟩
        · exact hF' v hv'

/-- `initAll` never panics and establishes the Dijkstra invariant with `S` as the
source set. -/
theorem initAll_inv (nbrs : Nat → List Nat) (w : Nat → Nat → Nat) (S : List Nat) :
    ∃ s, initAll S = some s ∧ DijkInv nbrs w S s := by
  obtain ⟨s, hfold, hA, hB, hC, hD, -, hF⟩ :=
    initFold_inv S S SearchSpace.new
      (by intro v l hl; exact absurd hl (by simp [SearchSpace.new]))
      (by intro e he; exact absurd he (by simp [SearchSpace.new]))
      (by intro v l hl; exact absurd hl (by simp [SearchSpace.new]))
      (by intro e he; exact absurd he (by simp [SearchSpace.new]))
      (fun v hv => hv)
  refine ⟨s, hfold, ?_, ?_, ?_, ?_, ?_, ?_, ?_⟩
  · intro e he
    obtain ⟨l, hl⟩ := hD e he
    obtain ⟨rfl, -⟩ := hA e.2 l hl
    exact ⟨(0, e.2, false), hl, Nat.zero_le _⟩
  · intro v l hl
    obtain ⟨rfl, hvS⟩ := hA v l hl
    exact Reach.source hvS
  · intro v l hl hset
    obtain ⟨rfl, -⟩ := hA v l hl
    simp at hset
  · intro u lu hlu hset
    obtain ⟨rfl, -⟩ := hA u lu hlu
    simp at hset
  · intro v l hl hfalse
    obtain ⟨rfl, -⟩ := hA v l hl
    exact hC v (0, v, false) hl
  · exact pairwise_of_all_zero s.pq hB
  · intro v hv
    obtain ⟨l, hl⟩ := hF v hv
    obtain ⟨rfl, -⟩ := hA v l hl
    exact ⟨(0, v, false), hl, rfl⟩

/-- Iterating `update` preserves the invariant, never panics, and never mutates a
settled label. -/
theorem iterUpdate_inv (nbrs : Nat → List Nat) (w : Nat → Nat → Nat) (S : List Nat)
    (s : SearchSpace) (hinv : DijkInv nbrs w S s) :
    ∀ k, ∃ s', iterUpdate nbrs w s k = some s' ∧ DijkInv nbrs w S s' ∧
      (∀ v l, s.labels v = some l → l.2.2 = true → s'.labels v = some l) := by
  intro k
  induction k with
  | zero => exact ⟨s, rfl, hinv, fun v l hl _ => hl⟩
  | succ k ih =>
    obtain ⟨t, hit, hinvt, hprest⟩ := ih
    obtain ⟨u, b, hupd, hinvu, hpresu⟩ := update_inv nbrs w S t hinvt
    refine ⟨u, ?_, hinvu, ?_⟩
    · show (iterUpdate nbrs w s k).bind (fun t => (update nbrs w t).map Prod.fst) =
        some u
      rw [hit]
      show (update nbrs w t).map Prod.fst = some u
      rw [hupd]
      rfl
    · intro v l hl hset
      exact hpresu v l (hprest v l hl hset) hset

theorem iterUpdate_add (nbrs : Nat → List Nat) (w : Nat → Nat → Nat)
    (s : SearchSpace) (k : Nat) : ∀ j, iterUpdate nbrs w s (k + j) =
      (iterUpdate nbrs w s k).bind (fun t => iterUpdate nbrs w t j) := by
  intro j
  induction j with
  | zero =>
    show iterUpdate nbrs w s k =
      (iterUpdate nbrs w s k).bind (fun t => iterUpdate nbrs w t 0)
    cases iterUpdate nbrs w s k with
    | none => rfl
    | some t => rfl
  | succ j ih =>
    show (iterUpdate nbrs w s (k + j)).bind (fun t => (update nbrs w t).map Prod.fst) =
      (iterUpdate nbrs w s k).bind (fun t => iterUpdate nbrs w t (j + 1))
    rw [ih]
    cases iterUpdate nbrs w s k with
    | none => rfl
    | some t => rfl

/-- C2 confirmed: for every graph with (non-negative, `Nat`-valued) transition
weights and a search initialized by `init` at any list of nodes `S`, every run of
`update<Dir>` calls succeeds, a label that is settled after `k` calls is never
mutated by the remaining calls (so each node is settled at most once), and the cost
stored in every settled node's label is the least total weight over all
`Dir`-direction paths from an initial node to that node. -/
theorem dijkstra_settles_once_at_minimum
    (nbrs : Nat → List Nat) (w : Nat → Nat → Nat) (S : List Nat) (m : Nat) :
    ∃ sm, runDijkstra nbrs w S m = some sm ∧
      (∀ k, k ≤ m → ∀ sk, runDijkstra nbrs w S k = some sk →
        ∀ v l, sk.labels v = some l → l.2.2 = true → sm.labels v = some l) ∧
      (∀ v c p, sm.labels v = some (c, p, true) →
        IsLeast (pathCosts nbrs w S v) c) := by
  obtain ⟨s0, hinit, hinv0⟩ := initAll_inv nbrs w S
  obtain ⟨sm, hiter, hinvm, -⟩ := iterUpdate_inv nbrs w S s0 hinv0 m
  have hrun : runDijkstra nbrs w S m = some sm := by
    rw [runDijkstra, hinit]
    exact hiter
  refine ⟨sm, hrun, ?_, ?_⟩
  · intro k hk sk hrunk v l hl hset
    have hk' : iterUpdate nbrs w s0 k = some sk := by
      rw [runDijkstra, hinit] at hrunk
      exact hrunk
    obtain ⟨sk', hk'', hinvk, -⟩ := iterUpdate_inv nbrs w S s0 hinv0 k
    rw [hk'] at hk''
    obtain rfl : sk = sk' := Option.some_inj.mp hk''
    obtain ⟨sm', hm', hinvm', hpres⟩ := iterUpdate_inv nbrs w S sk hinvk (m - k)
    have hadd : iterUpdate nbrs w s0 m = some sm' := by
      have hmk : k + (m - k) = m := by omega
      rw [← hmk, iterUpdate_add nbrs w s0 k (m - k), hk']
      exact hm'
    rw [hadd] at hiter
    obtain rfl : sm' = sm := Option.some_inj.mp hiter
    exact hpres v l hl hset
  · intro v c p hl
    have hreach := hinvm.labelReach v (c, p, true) hl
    have hopt := hinvm.settledOpt v (c, p, true) hl rfl
    rw [pathCosts_eq_reach]
    exact ⟨hreach, fun b hb => hopt b hb⟩

end Arli
